import Mathlib

/-!
# FThread: a tick-driven worker thread

A shallow embedding of `src/FThread.hpp` / `src/FThread.cpp`.

* A worker object is the record `FThread` (the data members of the class; the
  three mutexes and the never-assigned `m_thread` pointer carry no data).
* Pointers `FThread *` are natural numbers (`Ptr`), callables
  `std::function<void()>` are opaque identifiers (`Task`); invoking a hook or a
  callable is recorded as an `Event` in the log of the `World`.
* `std::queue` is a list whose head is `front()`; `push` appends at the end.
* Time points are microseconds since the clock epoch (so that
  `duration_cast<microseconds>` is the identity); `long` microsecond
  arithmetic is done in `Int` (signed overflow is undefined behaviour); the
  `unsigned long` tick counter is a natural number incremented modulo
  `ULONG_MAX + 1`.
* A finite `double` is the rational number it stands for; the double
  quotient `1000000 / tps` is the exact quotient rounded to the nearest double
  (IEEE 754 binary64, ties to even), and the cast to `int64_t` truncates it
  (`INT64_MIN` out of range, as the x86-64 conversion gives). NaN and
  infinite arguments are not modelled.
* The code run by the spawned `std::thread` (`preStart`, `run`,
  `processTaskQueue`) is a small-step machine: `PC` is the program point, one
  `threadStep` is one critical section or one atomic access (a hook or a
  callable runs as one step), and the calls made by other threads (`start`,
  `stop`, `addTask`, `setTicksPerSecond`) are `Label`s interleaved with it by
  `exec`. The mutexes only delay steps and are not part of the state; a thread
  that never leaves the loop of `removeFromWaitingList` steps without
  changing the state.
* `start` is called on a worker that has no live spawned thread, the
  interface on live objects only, and objects are deleted by their own
  self destruction only.
-/

namespace GLFWTest

/-- Enum `TaskQueueMode` of FThread.hpp. -/
inductive TaskQueueMode where
  | QUEUE_ENABLED
  | QUEUE_ONLY
  | QUEUE_DISABLED
deriving DecidableEq, Repr

/-- A pointer `FThread *`. -/
abbrev Ptr := Nat

/-- A callable `std::function<void()>`, identified by a number. -/
abbrev Task := Nat

/-- Constant `MIN_OVERHEAD` (FThread.cpp line 19), in microseconds. -/
def MIN_OVERHEAD : Int := -2000

/-- Constant `MAX_OVERHEAD` (FThread.cpp line 20), in microseconds. -/
def MAX_OVERHEAD : Int := 2000

/-- The largest value of `unsigned long` (64 bits, as on the LP64 platforms),
the value type of the tick counter `m_tickCount`. -/
def ULONG_MAX : Nat := 18446744073709551615

/-- The tick counter after the post-increment `m_tickCount++` on the
`std::atomic_ulong` (FThread.cpp lines 176 and 201): unsigned arithmetic, the
counter goes from `ULONG_MAX` to 0. -/
def nextTick (c : Nat) : Nat := (c + 1) % (ULONG_MAX + 1)

/-- The smallest value of `int64_t`. -/
def INT64_MIN : Int := -9223372036854775808

/-- Rounding to the nearest integer, a tie to the even one (the rounding
direction of IEEE 754 arithmetic). -/
def roundNearestEven (x : ℚ) : Int :=
  if x - ⌊x⌋ < 1 / 2 then ⌊x⌋
  else if 1 / 2 < x - ⌊x⌋ then ⌊x⌋ + 1
  else if ⌊x⌋ % 2 = 0 then ⌊x⌋ else ⌊x⌋ + 1

/-- The `double` (IEEE 754 binary64) that the positive real `x` is rounded
to: 53 significant bits, the exponent not below -1022, round to nearest even;
`none` is the result +infinity. -/
def roundToDouble (x : ℚ) : Option ℚ :=
  let e := max (Int.log 2 x) (-1022)
  let y := roundNearestEven (x / 2 ^ (e - 52)) * (2 : ℚ) ^ (e - 52)
  if y < 2 ^ 1024 then some y else none

/-- The cast `(int64_t)` of a `double`: the value truncated towards zero. Out
of the range of `int64_t` (and for an infinity) C++ leaves the result
undefined; the x86-64 conversion instruction gives `INT64_MIN`. -/
def toInt64 : Option ℚ → Int
  | some y =>
    if -(2 : ℚ) ^ 63 - 1 < y ∧ y < 2 ^ 63 then (if 0 ≤ y then ⌊y⌋ else ⌈y⌉) else INT64_MIN
  | none => INT64_MIN

/-- The data members of class `FThread` (FThread.hpp lines 58-134). -/
structure FThread where
  name : String
  waitingList : List Ptr
  frontTaskQueue : List Task
  backTaskQueue : List Task
  taskQueueThreshold : Nat
  taskQueueMode : TaskQueueMode
  tps : ℚ
  sleepTime : Int
  noSleepThread : Bool
  tickCount : Nat
  tickTime : Nat
  started : Bool
  running : Bool
  stopping : Bool
  selfDestructing : Bool
deriving DecidableEq

namespace FThread

/-- The expression `(int64_t) (1000000 / ticksPerSecond)` (FThread.cpp lines
40 and 293): the quotient of two doubles, rounded to a double, then cast. -/
def microsPerTick (ticksPerSecond : ℚ) : Int :=
  toInt64 (roundToDouble (1000000 / ticksPerSecond))

/-- The constructor `FThread::FThread` (FThread.cpp lines 22-50); the
registration in `INSTANCES` (lines 52-54) is done by `step`. -/
def construct (name : String) (ticksPerSecond : ℚ) (taskQueueMode : TaskQueueMode)
    (taskQueueThreshold : Nat) (selfDestruct : Bool) : FThread where
  name := name
  waitingList := []
  frontTaskQueue := []
  backTaskQueue := []
  tps := if ticksPerSecond ≤ 0 then -1 else ticksPerSecond
  noSleepThread := if ticksPerSecond ≤ 0 then true else false
  sleepTime := if ticksPerSecond ≤ 0 then 0 else microsPerTick ticksPerSecond
  tickCount := 0
  taskQueueThreshold := taskQueueThreshold
  taskQueueMode := taskQueueMode
  started := false
  running := false
  stopping := false
  selfDestructing := selfDestruct
  tickTime := 0

/-- The loop of `FThread::start` (FThread.cpp lines 85-91): `rest` is what is
left of the `waitFor` array, `running q` reads `waitFor[n]->m_running`, and
`waiting` is `m_waitingList`. -/
def startLoop (running : Ptr → Bool) : List Ptr → List Ptr → List Ptr
  | [], waiting => waiting
  | q :: rest, waiting =>
    startLoop running rest (if !running q then waiting ++ [q] else waiting)

/-- The body of `FThread::start` (FThread.cpp lines 80-93) on the object; the
spawn of the thread (line 95) is done by `step`. -/
def start (self : FThread) (running : Ptr → Bool) (waitFor : List Ptr) : FThread :=
  let s := { self with started := true, stopping := false }
  if waitFor.length > 0 then
    { s with waitingList := startLoop running waitFor s.waitingList }
  else s

/-- `FThread::stop` (FThread.cpp lines 209-213). -/
def stop (self : FThread) : FThread :=
  { self with stopping := true, running := false }

/-- `FThread::addTask` (FThread.cpp lines 234-242). -/
def addTask (self : FThread) (task : Task) : FThread :=
  if self.running && self.taskQueueMode != TaskQueueMode.QUEUE_DISABLED then
    { self with backTaskQueue := self.backTaskQueue ++ [task] }
  else self

/-- `FThread::setTicksPerSecond` (FThread.cpp lines 284-296). -/
def setTicksPerSecond (self : FThread) (newTPS : ℚ) : FThread :=
  let s := { self with tps := if newTPS ≤ 0 then -1 else newTPS }
  if s.tps = -1 then { s with noSleepThread := true }
  else { s with noSleepThread := false, sleepTime := microsPerTick s.tps }

/-- The accessor `hasStarted`. -/
def hasStarted (self : FThread) : Bool := self.started

/-- The accessor `isRunning`. -/
def isRunning (self : FThread) : Bool := self.running

/-- The accessor `isStopping`. -/
def isStopping (self : FThread) : Bool := self.stopping

/-- The accessor `getTickCount`. -/
def getTickCount (self : FThread) : Nat := self.tickCount

/-- The swap of `FThread::processTaskQueue` (FThread.cpp lines 222-224): the
two queue pointers change roles. -/
def swapTaskQueues (self : FThread) : FThread :=
  { self with frontTaskQueue := self.backTaskQueue, backTaskQueue := self.frontTaskQueue }

end FThread

/-- The loop of `FThread::removeFromWaitingList` (FThread.cpp lines 247-255)
with the iterator at index `i`: `fuel` bounds the number of condition checks,
`none` is a loop that is still running when the fuel is spent. The iterator is
never advanced by the source. -/
def removeFromWaitingListLoop (thread : Ptr) (waiting : List Ptr) (i : Nat) :
    Nat → Option (List Ptr)
  | 0 => none
  | fuel + 1 =>
    if h : i < waiting.length then
      if waiting.get ⟨i, h⟩ = thread then some (waiting.eraseIdx i)
      else removeFromWaitingListLoop thread waiting i fuel
    else some waiting

/-- The result of `FThread::removeFromWaitingList` (FThread.cpp lines 244-257)
on the waiting list: `none` when the loop never exits (the list is not empty
and its first element is not `thread`). -/
def removeFromWaitingList (waiting : List Ptr) (thread : Ptr) : Option (List Ptr) :=
  match waiting with
  | [] => some []
  | x :: rest => if x = thread then some rest else none

/-- The locals of `FThread::run` (FThread.cpp lines 135-139). -/
structure RunLocals where
  currentTick : Int
  lastTick : Int
  sleepUntil : Int
  overhead : Int
  duration : Int
deriving DecidableEq, Inhabited

/-- The clamp of FThread.cpp lines 187-190. -/
def clampOverhead (overhead : Int) : Int :=
  if overhead < MIN_OVERHEAD then MIN_OVERHEAD
  else if overhead > MAX_OVERHEAD then MAX_OVERHEAD
  else overhead

/-- The timing part of one rate-limited iteration (FThread.cpp lines 180-195):
`now` is the clock reading, `sleepTime` is `m_sleepTime`. -/
def rateLimitedUpdate (sleepTime : Int) (now : Int) (l : RunLocals) : RunLocals :=
  let duration := now - l.lastTick
  let overhead := clampOverhead (l.overhead + (duration - sleepTime))
  { currentTick := now
    duration := duration
    overhead := overhead
    sleepUntil := now + sleepTime - overhead
    lastTick := now }

/-- The timing part of one uncapped iteration (FThread.cpp lines 167-169). -/
def noSleepUpdate (now : Int) (l : RunLocals) : RunLocals :=
  { l with currentTick := now, duration := now - l.lastTick, lastTick := now }

/-- The initialisation of the locals in `FThread::run` (FThread.cpp lines
135-139). -/
def runInitLocals (sleepTime : Int) (now : Int) : RunLocals :=
  { currentTick := now
    lastTick := now - sleepTime
    sleepUntil := 0
    overhead := 0
    duration := 0 }

/-- Where the drain of the task queue returns to: the queue-only loop
(FThread.cpp line 157), the uncapped tick (line 172) or the rate-limited tick
(line 199). -/
inductive DrainCaller where
  | queueOnly
  | noSleep
  | rateLimited
deriving DecidableEq, Repr

/-- The program point of the thread spawned by `FThread::start`, which runs
`preStart` (FThread.cpp lines 98-131). -/
inductive PC where
  /-- No spawned thread is alive. -/
  | idle
  /-- The locked read of `m_waitingList.empty()` (lines 100-104, 108-110). -/
  | waitCheck
  /-- The wait `sleep_for(1ms)` (line 106). -/
  | waitSleep
  /-- The call `onStart()` (line 113). -/
  | startHook
  /-- The registry scan (lines 115-120); the list is what is left to visit. -/
  | scan (rest : List Ptr)
  /-- The entry of `run()` (lines 135-142). -/
  | runInit
  /-- The loop condition of the queue-only loop (line 145). -/
  | loopCheckQueueOnly
  /-- The locked read of `m_backTaskQueue->empty()` (lines 147-151). -/
  | queueOnlyCheck
  /-- The wait `sleep_for(m_sleepTime)` (line 153). -/
  | queueOnlySleep
  /-- The loop condition of the ticking loop (line 163). -/
  | loopCheckTick
  /-- The start of a tick iteration (lines 165-170 or 180-196). -/
  | tickBegin
  /-- The locked part of `processTaskQueue` (lines 217-225). -/
  | drainSwap (caller : DrainCaller)
  /-- The loop of `processTaskQueue` (lines 227-231). -/
  | drainPop (caller : DrainCaller)
  /-- The call `onTick(m_tickTime, m_tickCount++)` (lines 174-176 or 201). -/
  | tickHook (rateLimited : Bool)
  /-- The wait `sleep_until(sleepUntil)` (line 203). -/
  | sleepUntil
  /-- The call `onStop()` (line 123). -/
  | stopHook
  /-- The assignment `m_started = false` (line 125). -/
  | resetStarted
  /-- The assignment `m_stopping = false` (line 126). -/
  | resetStopping
  /-- The self destruction `delete this` (lines 127-130, 57-76). -/
  | selfDestruct
deriving DecidableEq, Repr

/-- What the program does that can be observed from outside: the calls of the
three hooks and of the queued callables, and the warning of
`processTaskQueue`. `running` is a marker for the assignment
`m_running = true` in `run()` (line 140). -/
inductive Event where
  | onStart (p : Ptr)
  | onTick (p : Ptr) (currentTime : Nat) (currentTick : Nat)
  | onStop (p : Ptr)
  | call (p : Ptr) (task : Task)
  | warning (p : Ptr) (size : Nat) (threshold : Nat)
  | running (p : Ptr)
deriving DecidableEq, Repr

/-- A worker object together with its spawned thread: the program point and
the locals of `run()`. -/
structure Worker where
  obj : FThread
  pc : PC
  loc : RunLocals

/-- The state of the process: the heap of workers, the registry `INSTANCES`
(FThread.cpp line 16) and the log of events so far, oldest first. -/
structure World where
  heap : Ptr → Worker
  INSTANCES : List Ptr
  log : List Event

namespace World

/-- The world with worker `p` replaced. -/
def set (w : World) (p : Ptr) (x : Worker) : World :=
  { w with heap := fun q => if q = p then x else w.heap q }

/-- The world with the object of `p` replaced. -/
def setObj (w : World) (p : Ptr) (o : FThread) : World :=
  w.set p { w.heap p with obj := o }

/-- The world with the program point of the thread of `p` replaced. -/
def setPC (w : World) (p : Ptr) (pc : PC) : World :=
  w.set p { w.heap p with pc := pc }

/-- The world with an event appended to the log. -/
def emit (w : World) (e : Event) : World :=
  { w with log := w.log ++ [e] }

/-- The process before any worker is constructed. -/
def init : World where
  heap := fun _ =>
    { obj := FThread.construct "" 0 TaskQueueMode.QUEUE_ENABLED 0 false
      pc := PC.idle
      loc := default }
  INSTANCES := []
  log := []

end World

/-- Where the thread continues after the drain of the task queue. -/
def DrainCaller.next : DrainCaller → PC
  | DrainCaller.queueOnly => PC.loopCheckQueueOnly
  | DrainCaller.noSleep => PC.tickHook false
  | DrainCaller.rateLimited => PC.tickHook true

/-- One step of `FThread::processTaskQueue` (FThread.cpp lines 215-232) run by
the thread of worker `p` at program point `pc`: the locked part (the warning
and the swap of the two buffers), then the loop that invokes and pops the
callables of the front buffer. -/
def processTaskQueue (w : World) (p : Ptr) : PC → Option World
  | PC.drainSwap caller =>
    let x := w.heap p
    let o := x.obj
    let w1 := if o.backTaskQueue.length > o.taskQueueThreshold
      then w.emit (Event.warning p o.backTaskQueue.length o.taskQueueThreshold) else w
    some (w1.set p { x with obj := o.swapTaskQueues, pc := PC.drainPop caller })
  | PC.drainPop caller =>
    let o := (w.heap p).obj
    match o.frontTaskQueue with
    | [] => some (w.setPC p caller.next)
    | task :: rest =>
      some ((w.emit (Event.call p task)).setObj p { o with frontTaskQueue := rest })
  | _ => none

/-- One step of `FThread::run` (FThread.cpp lines 133-207) run by the thread
of worker `p` at program point `pc`; `now` is what the clock shows if the step
reads it. The calls of `processTaskQueue` (lines 157, 172, 199) are the
program points `drainSwap` and `drainPop`. -/
def run (w : World) (p : Ptr) (now : Nat) : PC → Option World
  | PC.runInit =>
    let o := (w.heap p).obj
    some (((w.set p
        { obj := { o with running := true }
          pc := if o.taskQueueMode = TaskQueueMode.QUEUE_ONLY then PC.loopCheckQueueOnly
                else PC.loopCheckTick
          loc := runInitLocals o.sleepTime now })).emit (Event.running p))
  | PC.loopCheckQueueOnly =>
    if (w.heap p).obj.running then some (w.setPC p PC.queueOnlyCheck)
    else some (w.setPC p PC.stopHook)
  | PC.queueOnlyCheck =>
    if (w.heap p).obj.backTaskQueue.isEmpty then some (w.setPC p PC.queueOnlySleep)
    else some (w.setPC p (PC.drainSwap DrainCaller.queueOnly))
  | PC.queueOnlySleep => some (w.setPC p PC.loopCheckQueueOnly)
  | PC.loopCheckTick =>
    if (w.heap p).obj.running then some (w.setPC p PC.tickBegin)
    else some (w.setPC p PC.stopHook)
  | PC.tickBegin =>
    let x := w.heap p
    let o := x.obj
    if o.noSleepThread then
      some (w.set p
        { obj := o
          pc := if o.taskQueueMode = TaskQueueMode.QUEUE_ENABLED
                then PC.drainSwap DrainCaller.noSleep else PC.tickHook false
          loc := noSleepUpdate now x.loc })
    else
      some (w.set p
        { obj := { o with tickTime := now }
          pc := if o.taskQueueMode = TaskQueueMode.QUEUE_ENABLED
                then PC.drainSwap DrainCaller.rateLimited else PC.tickHook true
          loc := rateLimitedUpdate o.sleepTime now x.loc })
  | PC.tickHook false =>
    let x := w.heap p
    let o := x.obj
    let time := x.loc.currentTick.toNat
    some ((w.emit (Event.onTick p time o.tickCount)).set p
      { x with obj := { o with tickTime := time, tickCount := nextTick o.tickCount }
               pc := PC.loopCheckTick })
  | PC.tickHook true =>
    let x := w.heap p
    let o := x.obj
    some ((w.emit (Event.onTick p o.tickTime o.tickCount)).set p
      { x with obj := { o with tickCount := nextTick o.tickCount }, pc := PC.sleepUntil })
  | PC.sleepUntil => some (w.setPC p PC.loopCheckTick)
  | _ => none

/-- One step of `FThread::preStart` (FThread.cpp lines 98-131) run by the
thread of worker `p` at program point `pc`: the wait for the waiting list to
be empty, the start hook, the registry scan, and, after `run()` (line 122) has
returned, the stop hook, the reset of the flags and the self destruction with
the removal from the registry done by the destructor (lines 63-75). -/
def preStart (w : World) (p : Ptr) : PC → Option World
  | PC.waitCheck =>
    if (w.heap p).obj.waitingList.isEmpty then some (w.setPC p PC.startHook)
    else some (w.setPC p PC.waitSleep)
  | PC.waitSleep => some (w.setPC p PC.waitCheck)
  | PC.startHook =>
    some ((w.emit (Event.onStart p)).setPC p (PC.scan w.INSTANCES))
  | PC.scan [] => some (w.setPC p PC.runInit)
  | PC.scan (q :: rest) =>
    match removeFromWaitingList (w.heap q).obj.waitingList p with
    | some l =>
      some ((w.setObj q { (w.heap q).obj with waitingList := l }).setPC p (PC.scan rest))
    | none => some w
  | PC.stopHook => some ((w.emit (Event.onStop p)).setPC p PC.resetStarted)
  | PC.resetStarted =>
    let x := w.heap p
    some (w.set p { x with obj := { x.obj with started := false }, pc := PC.resetStopping })
  | PC.resetStopping =>
    let x := w.heap p
    some (w.set p
      { x with obj := { x.obj with stopping := false }
               pc := if x.obj.selfDestructing then PC.selfDestruct else PC.idle })
  | PC.selfDestruct =>
    some ({ w with INSTANCES := w.INSTANCES.erase p }.setPC p PC.idle)
  | _ => none

/-- One step of the thread spawned for worker `p`: the program point says
which of `preStart`, `run` and `processTaskQueue` the thread is in; `now` is
what the clock shows if the step reads it. `none`: the worker has no live
thread. -/
def threadStep (w : World) (p : Ptr) (now : Nat) : Option World :=
  match (w.heap p).pc with
  | PC.idle => none
  | PC.waitCheck => preStart w p PC.waitCheck
  | PC.waitSleep => preStart w p PC.waitSleep
  | PC.startHook => preStart w p PC.startHook
  | PC.scan [] => preStart w p (PC.scan [])
  | PC.scan (q :: rest) => preStart w p (PC.scan (q :: rest))
  | PC.runInit => run w p now PC.runInit
  | PC.loopCheckQueueOnly => run w p now PC.loopCheckQueueOnly
  | PC.queueOnlyCheck => run w p now PC.queueOnlyCheck
  | PC.queueOnlySleep => run w p now PC.queueOnlySleep
  | PC.loopCheckTick => run w p now PC.loopCheckTick
  | PC.tickBegin => run w p now PC.tickBegin
  | PC.drainSwap caller => processTaskQueue w p (PC.drainSwap caller)
  | PC.drainPop caller => processTaskQueue w p (PC.drainPop caller)
  | PC.tickHook false => run w p now (PC.tickHook false)
  | PC.tickHook true => run w p now (PC.tickHook true)
  | PC.sleepUntil => run w p now PC.sleepUntil
  | PC.stopHook => preStart w p PC.stopHook
  | PC.resetStarted => preStart w p PC.resetStarted
  | PC.resetStopping => preStart w p PC.resetStopping
  | PC.selfDestruct => preStart w p PC.selfDestruct

/-- What a scheduler can choose next: a call of the public interface from any
thread, or a step of the thread spawned for a worker. -/
inductive Label where
  | construct (p : Ptr) (name : String) (ticksPerSecond : ℚ) (mode : TaskQueueMode)
      (threshold : Nat) (selfDestruct : Bool)
  | start (p : Ptr) (waitFor : List Ptr)
  | stop (p : Ptr)
  | addTask (p : Ptr) (task : Task)
  | setTicksPerSecond (p : Ptr) (newTPS : ℚ)
  | thread (p : Ptr) (now : Nat)

/-- One step of the process. `none`: the step cannot be taken. An object is
constructed at an address that holds no live worker; the interface is called
on live workers only; `start` is called on a worker without a live spawned
thread, with an array of live workers. -/
def step (w : World) : Label → Option World
  | Label.construct p name tps mode threshold selfDestruct =>
    if p ∈ w.INSTANCES then none
    else some ({ w with INSTANCES := w.INSTANCES ++ [p] }.set p
      { obj := FThread.construct name tps mode threshold selfDestruct
        pc := PC.idle
        loc := default })
  | Label.start p waitFor =>
    if p ∈ w.INSTANCES ∧ (w.heap p).pc = PC.idle ∧ ∀ q ∈ waitFor, q ∈ w.INSTANCES then
      some (w.set p
        { w.heap p with
          obj := (w.heap p).obj.start (fun q => (w.heap q).obj.running) waitFor
          pc := PC.waitCheck })
    else none
  | Label.stop p =>
    if p ∈ w.INSTANCES then some (w.setObj p (w.heap p).obj.stop) else none
  | Label.addTask p task =>
    if p ∈ w.INSTANCES then some (w.setObj p ((w.heap p).obj.addTask task)) else none
  | Label.setTicksPerSecond p newTPS =>
    if p ∈ w.INSTANCES then some (w.setObj p ((w.heap p).obj.setTicksPerSecond newTPS))
    else none
  | Label.thread p now => threadStep w p now

/-- The process after a schedule, a list of steps taken from left to right. -/
def exec (w : World) : List Label → Option World
  | [] => some w
  | l :: rest =>
    match step w l with
    | some w1 => exec w1 rest
    | none => none

/-- The worlds the process can be in. -/
def Reachable (w : World) : Prop := ∃ s, exec World.init s = some w

/-- The locals of `run()` after `k` iterations of the rate-limited branch
(FThread.cpp lines 135-139, then lines 180-195 `k` times) with a constant
`m_sleepTime`: `start` is the clock reading at the entry of `run()`,
`clock i` the reading at the start of iteration `i + 1`. -/
def rateLimitedRun (sleepTime : Int) (start : Int) (clock : Nat → Int) : Nat → RunLocals
  | 0 => runInitLocals sleepTime start
  | k + 1 => rateLimitedUpdate sleepTime (clock k) (rateLimitedRun sleepTime start clock k)

/-- The worlds after each step of a schedule, in order. -/
def execTrace (w : World) : List Label → Option (List World)
  | [] => some []
  | l :: rest =>
    match step w l with
    | some w1 => (execTrace w1 rest).map (fun t => w1 :: t)
    | none => none

/-- The world a schedule leads to from the initial world (the initial world
itself when the schedule cannot be taken). -/
def runWorld (s : List Label) : World := (exec World.init s).getD World.init

/-- The worker a label is a call on, or whose thread it moves. -/
def Label.target : Label → Ptr
  | Label.construct p _ _ _ _ _ => p
  | Label.start p _ => p
  | Label.stop p => p
  | Label.addTask p _ => p
  | Label.setTicksPerSecond p _ => p
  | Label.thread p _ => p

/-- The tick indices passed to the tick hook of worker `p`, oldest first. -/
def tickIndices (p : Ptr) : List Event → List Nat
  | [] => []
  | Event.onTick q _ i :: rest => if q = p then i :: tickIndices p rest else tickIndices p rest
  | _ :: rest => tickIndices p rest

/-- The callables invoked by the drain of worker `p`, oldest first. -/
def calledTasks (p : Ptr) : List Event → List Task
  | [] => []
  | Event.call q t :: rest => if q = p then t :: calledTasks p rest else calledTasks p rest
  | _ :: rest => calledTasks p rest

/-- Whether the label is a step of the thread of worker `p`. -/
def Label.isThreadOf (p : Ptr) : Label → Bool
  | Label.thread q _ => decide (q = p)
  | _ => false

/-- Whether the label is the construction of an object at address `p`. -/
def Label.isConstructOf (p : Ptr) : Label → Bool
  | Label.construct q _ _ _ _ _ => decide (q = p)
  | _ => false

/-- Whether the label is a call of `start` on worker `p`. -/
def Label.isStartOf (p : Ptr) : Label → Bool
  | Label.start q _ => decide (q = p)
  | _ => false

/-- The task the label puts into the back buffer of worker `p`, whose object
is `o` when the step is taken: the task of a call of `addTask` on `p` that is
accepted. -/
def Label.enqueued (p : Ptr) (o : FThread) : Label → List Task
  | Label.addTask q t =>
    if q = p ∧ o.running = true ∧ o.taskQueueMode ≠ TaskQueueMode.QUEUE_DISABLED then [t]
    else []
  | _ => []

/-- The tasks that calls of `addTask` on worker `p` put into its back buffer
in the course of a schedule, in the order of the calls. -/
def enqueuedTasks (p : Ptr) (w : World) : List Label → List Task
  | [] => []
  | l :: rest =>
    l.enqueued p (w.heap p).obj ++
    (match step w l with
      | some w1 => enqueuedTasks p w1 rest
      | none => [])

/-- The program points of the loops of `run()` (FThread.cpp lines 145-205). -/
def PC.inLoop : PC → Bool
  | PC.loopCheckQueueOnly => true
  | PC.queueOnlyCheck => true
  | PC.queueOnlySleep => true
  | PC.loopCheckTick => true
  | PC.tickBegin => true
  | PC.drainSwap _ => true
  | PC.drainPop _ => true
  | PC.tickHook _ => true
  | PC.sleepUntil => true
  | _ => false

/-- The program points of a tick iteration before the call of the tick hook
(FThread.cpp lines 165-176 or 180-201). -/
def PC.tickBody : PC → Bool
  | PC.tickBegin => true
  | PC.drainSwap DrainCaller.noSleep => true
  | PC.drainSwap DrainCaller.rateLimited => true
  | PC.drainPop DrainCaller.noSleep => true
  | PC.drainPop DrainCaller.rateLimited => true
  | PC.tickHook _ => true
  | _ => false

/-- The program points of `preStart` up to the assignment `m_started = false`
(FThread.cpp lines 100-125). -/
def PC.beforeReset : PC → Bool
  | PC.idle => false
  | PC.resetStopping => false
  | PC.selfDestruct => false
  | _ => true

/-- The program points of `preStart` and `run()` up to the assignment
`m_running = true` (FThread.cpp lines 100-140). -/
def PC.beforeRun : PC → Bool
  | PC.waitCheck => true
  | PC.waitSleep => true
  | PC.startHook => true
  | PC.scan _ => true
  | PC.runInit => true
  | _ => false

/-- The program points of `preStart` before the start hook is called
(FThread.cpp lines 100-111). -/
def PC.waiting : PC → Bool
  | PC.waitCheck => true
  | PC.waitSleep => true
  | _ => false

/-- A schedule after which worker 2 is running and worker 1 is constructed
and not started. -/
def oneIdleOneRunning : List Label :=
  [Label.construct 1 "B" 60 TaskQueueMode.QUEUE_ENABLED 250 false,
   Label.construct 2 "C" 60 TaskQueueMode.QUEUE_ENABLED 250 false,
   Label.start 2 [],
   Label.thread 2 0, Label.thread 2 0, Label.thread 2 0, Label.thread 2 0,
   Label.thread 2 0, Label.thread 2 0]

/-- A schedule of the whole life of a worker: constructed, started, ticking
twice, stopped during the second tick, stop hook, flags reset. -/
def wholeLife : List Label :=
  [Label.construct 1 "W" 0 TaskQueueMode.QUEUE_DISABLED 250 false,
   Label.start 1 [],
   Label.thread 1 0, Label.thread 1 0, Label.thread 1 0, Label.thread 1 0,
   Label.thread 1 10, Label.thread 1 10, Label.thread 1 20, Label.thread 1 20,
   Label.thread 1 30, Label.thread 1 30,
   Label.stop 1,
   Label.thread 1 40, Label.thread 1 50, Label.thread 1 50, Label.thread 1 50,
   Label.thread 1 50]

/-- A schedule that leads worker 1 (uncapped, `QUEUE_ENABLED`) to the start of
a drain with the tasks 7 and 8 in its back buffer. -/
def beforeDrain : List Label :=
  [Label.construct 1 "W" 0 TaskQueueMode.QUEUE_ENABLED 250 false,
   Label.start 1 [],
   Label.thread 1 0, Label.thread 1 0, Label.thread 1 0, Label.thread 1 0,
   Label.thread 1 10,
   Label.addTask 1 7, Label.addTask 1 8,
   Label.thread 1 10, Label.thread 1 20]

/-- A schedule in which worker 2 is started with the array of worker 1 while
worker 1 is not running, and calls its start hook when worker 1 has finished
its registry scan but has not yet entered `run()`. -/
def startBeforeRunning : List Label :=
  [Label.construct 1 "B" 60 TaskQueueMode.QUEUE_ENABLED 250 false,
   Label.construct 2 "A" 60 TaskQueueMode.QUEUE_ENABLED 250 false,
   Label.start 2 [1],
   Label.start 1 [],
   Label.thread 2 0,
   Label.thread 1 0, Label.thread 1 0, Label.thread 1 0, Label.thread 1 0,
   Label.thread 2 1000, Label.thread 2 1000, Label.thread 2 1000]

/-- A schedule in which `stop` is called right after `start` has returned,
while the spawned thread has not yet looked at its waiting list; the thread
then runs `preStart` and `run()` up to the start of its second tick. -/
def stopBeforeRun : List Label :=
  [Label.construct 1 "W" 60 TaskQueueMode.QUEUE_ENABLED 250 false,
   Label.start 1 [],
   Label.stop 1,
   Label.thread 1 0, Label.thread 1 0, Label.thread 1 0, Label.thread 1 0,
   Label.thread 1 5, Label.thread 1 5, Label.thread 1 6, Label.thread 1 6,
   Label.thread 1 6, Label.thread 1 7, Label.thread 1 16672, Label.thread 1 16672]

/-- A schedule in which worker 1 waits for the workers 2 and 3 (its waiting
list is 2, 3) and worker 3, started without waiting, has called its start hook
and is at the first entry of its registry scan, worker 1. -/
def scanNotAtHead : List Label :=
  [Label.construct 1 "A" 60 TaskQueueMode.QUEUE_ENABLED 250 false,
   Label.construct 2 "B" 60 TaskQueueMode.QUEUE_ENABLED 250 false,
   Label.construct 3 "T" 60 TaskQueueMode.QUEUE_ENABLED 250 false,
   Label.start 1 [2, 3],
   Label.start 3 [],
   Label.thread 3 0, Label.thread 3 0]

/-- A schedule in which worker 1 is started with worker 2 twice in its array
(its waiting list is 2, 2) and worker 2, started without waiting, has called
its start hook and has finished its registry scan. -/
def scanDuplicate : List Label :=
  [Label.construct 1 "A" 60 TaskQueueMode.QUEUE_ENABLED 250 false,
   Label.construct 2 "T" 60 TaskQueueMode.QUEUE_ENABLED 250 false,
   Label.start 1 [2, 2],
   Label.start 2 [],
   Label.thread 2 0, Label.thread 2 0, Label.thread 2 0, Label.thread 2 0,
   Label.thread 2 0]

/-- A schedule in which worker 1 waits for worker 2 (its waiting list is 2) and
a third worker 3, started without waiting, has called its start hook and is at
the first entry of its registry scan, worker 1. -/
def scanAbsent : List Label :=
  [Label.construct 1 "A" 60 TaskQueueMode.QUEUE_ENABLED 250 false,
   Label.construct 2 "B" 60 TaskQueueMode.QUEUE_ENABLED 250 false,
   Label.construct 3 "T" 60 TaskQueueMode.QUEUE_ENABLED 250 false,
   Label.start 1 [2],
   Label.start 3 [],
   Label.thread 3 0, Label.thread 3 0]

/-- A schedule in which worker 1 (uncapped, `QUEUE_DISABLED`) is constructed
and started, enters `run()` and then makes `n` tick iterations, each of three
steps: the loop condition, the clock reading, the tick hook. -/
def manyTicks (n : Nat) : List Label :=
  [Label.construct 1 "W" 0 TaskQueueMode.QUEUE_DISABLED 250 false,
   Label.start 1 [],
   Label.thread 1 0, Label.thread 1 0, Label.thread 1 0, Label.thread 1 0,
   Label.thread 1 0] ++ List.replicate (3 * n) (Label.thread 1 0)

/-- A clock for the steady regime with `m_sleepTime = sleepTime` and every
wake-up `latency` after its deadline: the first iteration starts at 0,
iteration `k + 1` at `k * sleepTime + latency`. -/
def steadyClock (sleepTime latency : Int) (k : Nat) : Int :=
  if k = 0 then 0 else k * sleepTime + latency

/-! ## Properties -/

/-- C2: `addTask` appends the task at the end of the back buffer if and only
if `running` is true and the mode is not `QUEUE_DISABLED`; in that case nothing
else changes, and in every other state the worker is left as it was (the
function is total: no error is signalled). -/
theorem C2_addTask_accepts_iff_running_and_enabled (self : FThread) (task : Task) :
    ((self.addTask task).backTaskQueue = self.backTaskQueue ++ [task] ↔
      (self.running = true ∧ self.taskQueueMode ≠ TaskQueueMode.QUEUE_DISABLED)) ∧
    ((self.running = true ∧ self.taskQueueMode ≠ TaskQueueMode.QUEUE_DISABLED) →
      self.addTask task = { self with backTaskQueue := self.backTaskQueue ++ [task] }) ∧
    (¬ (self.running = true ∧ self.taskQueueMode ≠ TaskQueueMode.QUEUE_DISABLED) →
      self.addTask task = self ∧
      (self.addTask task).frontTaskQueue = self.frontTaskQueue ∧
      (self.addTask task).backTaskQueue = self.backTaskQueue) := by
  by_cases h : self.running = true ∧ self.taskQueueMode ≠ TaskQueueMode.QUEUE_DISABLED
  · have e : self.addTask task = { self with backTaskQueue := self.backTaskQueue ++ [task] } := by
      simp [FThread.addTask, h.1, h.2]
    refine ⟨⟨fun _ => h, fun _ => by rw [e]⟩, fun _ => e, fun n => absurd h n⟩
  · have e : self.addTask task = self := by
      unfold FThread.addTask
      rw [if_neg]
      intro hc
      apply h
      simpa using hc
    refine ⟨⟨fun hq => ?_, fun hc => absurd hc h⟩, fun hc => absurd hc h, fun _ => ⟨e, by rw [e], by rw [e]⟩⟩
    rw [e] at hq
    have := congrArg List.length hq
    simp at this

/-- The clamp of the source is the clamp to the interval from -2000 to 2000. -/
theorem clampOverhead_eq (x : Int) : clampOverhead x = max (-2000) (min 2000 x) := by
  unfold clampOverhead MIN_OVERHEAD MAX_OVERHEAD
  split_ifs <;> omega

/-- C10: in a rate-limited iteration the measured duration is the clock
reading minus the last tick, the new overhead is (old overhead + duration -
sleepInterval) clamped to the interval from -2000 to 2000 microseconds, the
deadline is now + sleepInterval - overhead; so the overhead is within the
bounds and the distance to the deadline is within sleepInterval - 2000 and
sleepInterval + 2000. -/
theorem C10_overhead_clamped_and_deadline (sleepTime now : Int) (l : RunLocals) :
    (rateLimitedUpdate sleepTime now l).duration = now - l.lastTick ∧
    (rateLimitedUpdate sleepTime now l).overhead =
      max (-2000) (min 2000
        (l.overhead + (rateLimitedUpdate sleepTime now l).duration - sleepTime)) ∧
    (rateLimitedUpdate sleepTime now l).sleepUntil =
      now + sleepTime - (rateLimitedUpdate sleepTime now l).overhead ∧
    MIN_OVERHEAD ≤ (rateLimitedUpdate sleepTime now l).overhead ∧
    (rateLimitedUpdate sleepTime now l).overhead ≤ MAX_OVERHEAD ∧
    sleepTime - 2000 ≤ (rateLimitedUpdate sleepTime now l).sleepUntil - now ∧
    (rateLimitedUpdate sleepTime now l).sleepUntil - now ≤ sleepTime + 2000 := by
  simp only [rateLimitedUpdate, clampOverhead_eq, MIN_OVERHEAD, MAX_OVERHEAD]
  refine ⟨trivial, ?_, trivial, ?_, ?_, ?_, ?_⟩
  · congr 2
    omega
  all_goals omega

/-- In the steady regime of `rateLimitedRun` (every sleep wakes `latency`
after its deadline) the overhead after the second and every later iteration
is the latency. -/
theorem rateLimitedRun_overhead (sleepTime start latency : Int) (clock : Nat → Int)
    (hlo : 0 ≤ latency) (hhi : latency ≤ 2000)
    (hwake : ∀ k, clock (k + 1) = (rateLimitedRun sleepTime start clock (k + 1)).sleepUntil + latency)
    (k : Nat) :
    (rateLimitedRun sleepTime start clock (k + 2)).overhead = latency := by
  have h1 := hwake k
  have e : (rateLimitedRun sleepTime start clock (k + 2)) =
      rateLimitedUpdate sleepTime (clock (k + 1)) (rateLimitedRun sleepTime start clock (k + 1)) := rfl
  rw [e]
  generalize rateLimitedRun sleepTime start clock k = prev at *
  have e1 : rateLimitedRun sleepTime start clock (k + 1) =
      rateLimitedUpdate sleepTime (clock k) (rateLimitedRun sleepTime start clock k) := rfl
  rw [e1] at h1 ⊢
  simp only [rateLimitedUpdate, clampOverhead_eq] at h1 ⊢
  omega

/-- The interval between two clock readings in the steady regime. -/
theorem rateLimitedRun_period (sleepTime start latency : Int) (clock : Nat → Int)
    (hlo : 0 ≤ latency) (hhi : latency ≤ 2000)
    (hwake : ∀ k, clock (k + 1) = (rateLimitedRun sleepTime start clock (k + 1)).sleepUntil + latency)
    (k : Nat) :
    clock (k + 2) - clock (k + 1) = sleepTime := by
  have h2 : clock (k + 2) =
      (rateLimitedRun sleepTime start clock (k + 2)).sleepUntil + latency := hwake (k + 1)
  have ho := rateLimitedRun_overhead sleepTime start latency clock hlo hhi hwake k
  have e : (rateLimitedRun sleepTime start clock (k + 2)).sleepUntil =
      clock (k + 1) + sleepTime - (rateLimitedRun sleepTime start clock (k + 2)).overhead := rfl
  rw [e, ho] at h2
  omega

/-! ### The sleep interval -/

/-- Rounding to nearest moves a number by at most one half. -/
theorem roundNearestEven_close (x : ℚ) : |x - roundNearestEven x| ≤ 1 / 2 := by
  have h1 := Int.floor_le x
  have h2 := Int.lt_floor_add_one x
  unfold roundNearestEven
  rw [abs_le]
  split_ifs <;> push_cast <;> constructor <;> linarith

/-- A number less than one half away from an integer is rounded to it. -/
theorem roundNearestEven_eq (x : ℚ) (n : Int) (h : |x - n| < 1 / 2) :
    roundNearestEven x = n := by
  have hc := roundNearestEven_close x
  rw [abs_lt] at h
  rw [abs_le] at hc
  have h3 : ((roundNearestEven x - n : Int) : ℚ) < 1 := by
    push_cast
    linarith
  have h4 : (-1 : ℚ) < ((roundNearestEven x - n : Int) : ℚ) := by
    push_cast
    linarith
  have h5 : roundNearestEven x - n < 1 := by exact_mod_cast h3
  have h6 : -1 < roundNearestEven x - n := by exact_mod_cast h4
  omega

/-- The double a real is rounded to, from its binary exponent and the integer
nearest to its significand. -/
theorem roundToDouble_eq (x : ℚ) (e n : Int) (he : -1022 ≤ e) (h1 : (2 : ℚ) ^ e ≤ x)
    (h2 : x < (2 : ℚ) ^ (e + 1)) (hn : |x / 2 ^ (e - 52) - n| < 1 / 2)
    (hfin : (n : ℚ) * 2 ^ (e - 52) < 2 ^ 1024) :
    roundToDouble x = some ((n : ℚ) * 2 ^ (e - 52)) := by
  have hx : 0 < x := lt_of_lt_of_le (by positivity) h1
  have hlog : Int.log 2 x = e := by
    have a1 : e ≤ Int.log 2 x := (Int.zpow_le_iff_le_log (by norm_num) hx).mp (by exact_mod_cast h1)
    have a2 : Int.log 2 x < e + 1 :=
      (Int.lt_zpow_iff_log_lt (by norm_num) hx).mp (by exact_mod_cast h2)
    omega
  unfold roundToDouble
  simp only [hlog, max_eq_left he, roundNearestEven_eq _ n hn, hfin, if_true]

/-- The spacing of the doubles around a real in the normal range is at most
the real times 2 ^ -52. -/
theorem spacing_le (x : ℚ) (hx : (2 : ℚ) ^ (-1022 : Int) ≤ x) :
    (2 : ℚ) ^ (max (Int.log 2 x) (-1022) - 52) ≤ x / 2 ^ 52 := by
  have hx0 : 0 < x := lt_of_lt_of_le (by positivity) hx
  have hl : (-1022 : Int) ≤ Int.log 2 x :=
    (Int.zpow_le_iff_le_log (by norm_num) hx0).mp (by exact_mod_cast hx)
  rw [max_eq_left hl, zpow_sub₀ (by norm_num)]
  have h := Int.zpow_log_le_self (b := 2) (by norm_num) hx0
  have h' : (2 : ℚ) ^ Int.log 2 x ≤ x := by exact_mod_cast h
  have e52 : (2 : ℚ) ^ (52 : Int) = 2 ^ 52 := by norm_cast
  rw [e52]
  exact div_le_div_of_nonneg_right h' (by positivity)

/-- The spacing of the doubles around a positive real below 2 ^ 63 is at most
2 ^ 10. -/
theorem spacing_le_of_lt (x : ℚ) (hx0 : 0 < x) (hx : x < 2 ^ 63) :
    (2 : ℚ) ^ (max (Int.log 2 x) (-1022) - 52) ≤ 2 ^ 10 := by
  have hl : Int.log 2 x < 63 :=
    (Int.lt_zpow_iff_log_lt (by norm_num) hx0).mp (by exact_mod_cast hx)
  have hm : max (Int.log 2 x) (-1022) - 52 ≤ 10 := by
    have := max_le (a := Int.log 2 x) (b := -1022) (c := 62) (by omega) (by norm_num)
    omega
  have h := zpow_le_zpow_right₀ (a := (2 : ℚ)) (by norm_num) hm
  have e10 : (2 : ℚ) ^ (10 : Int) = 2 ^ 10 := by norm_cast
  rw [e10] at h
  exact h

/-- The sleep interval computed from `tps`: for a finite positive `tps` whose
quotient fits `int64_t`, it is not negative and lies between
`1000000 / tps * (1 - 2 ^ -53) - 1` and `1000000 / tps * (1 + 2 ^ -53)`. -/
theorem microsPerTick_bounds (tps : ℚ) (htps : 0 < tps) (hfin : tps < 2 ^ 1024)
    (hfit : 1000000 / tps < 2 ^ 63 - 512) :
    0 ≤ FThread.microsPerTick tps ∧
    (FThread.microsPerTick tps : ℚ) ≤ 1000000 / tps * (1 + 1 / 2 ^ 53) ∧
    1000000 / tps * (1 - 1 / 2 ^ 53) - 1 < (FThread.microsPerTick tps : ℚ) := by
  have hx0 : 0 < 1000000 / tps := by positivity
  have hxn : (2 : ℚ) ^ (-1022 : Int) ≤ 1000000 / tps := by
    rw [le_div_iff₀ htps]
    have e : (2 : ℚ) ^ (-1022 : Int) = 1 / 2 ^ 1022 := by
      rw [zpow_neg, one_div]
      norm_cast
    rw [e]
    have : (1 : ℚ) / 2 ^ 1022 * tps ≤ 1 / 2 ^ 1022 * 2 ^ 1024 :=
      mul_le_mul_of_nonneg_left hfin.le (by positivity)
    have e2 : (1 : ℚ) / 2 ^ 1022 * 2 ^ 1024 = 4 := by
      rw [show (2 : ℚ) ^ 1024 = 2 ^ 1022 * 4 by rw [show (1024 : ℕ) = 1022 + 2 from rfl, pow_add]; norm_num]
      field_simp
    linarith
  generalize hx : 1000000 / tps = x at *
  have hs1 := spacing_le x hxn
  have hs2 := spacing_le_of_lt x hx0 (by linarith)
  have hc := roundNearestEven_close (x / 2 ^ (max (Int.log 2 x) (-1022) - 52))
  unfold FThread.microsPerTick roundToDouble
  rw [hx]
  simp only []
  generalize hu : (2 : ℚ) ^ (max (Int.log 2 x) (-1022) - 52) = u at *
  have hu0 : 0 < u := by rw [← hu]; positivity
  generalize hn : roundNearestEven (x / u) = n at *
  rw [abs_le] at hc
  have hy1 : (n : ℚ) * u ≤ x + u / 2 := by
    have : (n : ℚ) ≤ x / u + 1 / 2 := by linarith
    have := mul_le_mul_of_nonneg_right this hu0.le
    rw [add_mul, div_mul_cancel₀ _ hu0.ne'] at this
    linarith
  have hy2 : x - u / 2 ≤ (n : ℚ) * u := by
    have : x / u - 1 / 2 ≤ (n : ℚ) := by linarith
    have := mul_le_mul_of_nonneg_right this hu0.le
    rw [sub_mul, div_mul_cancel₀ _ hu0.ne'] at this
    linarith
  have hx53 : x / 2 ^ 52 / 2 = x * (1 / 2 ^ 53) := by
    rw [show (2 : ℚ) ^ 53 = 2 ^ 52 * 2 by norm_num]
    field_simp
  have hxs : x * (1 / 2 ^ 53) < x := by
    have : (1 : ℚ) / 2 ^ 53 < 1 := by norm_num
    nlinarith
  have hy0 : 0 ≤ (n : ℚ) * u := by linarith
  have hy63 : (n : ℚ) * u < 2 ^ 63 := by
    have : u / 2 ≤ 512 := by
      have : (2 : ℚ) ^ 10 = 1024 := by norm_num
      linarith
    linarith
  have hy1024 : (n : ℚ) * u < 2 ^ 1024 :=
    lt_of_lt_of_le hy63 (pow_le_pow_right₀ (by norm_num) (by norm_num))
  have hlow : -(2 : ℚ) ^ 63 - 1 < (n : ℚ) * u := by
    have : (0 : ℚ) < 2 ^ 63 := by positivity
    linarith
  simp only [hy1024, if_true, toInt64, hlow, hy63, and_self, hy0]
  have hf1 := Int.floor_le ((n : ℚ) * u)
  have hf2 := Int.lt_floor_add_one ((n : ℚ) * u)
  refine ⟨Int.floor_nonneg.mpr hy0, ?_, ?_⟩
  · have : x * (1 + 1 / 2 ^ 53) = x + x * (1 / 2 ^ 53) := by ring
    rw [this]
    linarith
  · have : x * (1 - 1 / 2 ^ 53) = x - x * (1 / 2 ^ 53) := by ring
    rw [this]
    linarith

/-- The clamp leaves an overhead within the bounds as it is. -/
theorem clampOverhead_of_bounds (x : Int) (h1 : -2000 ≤ x) (h2 : x ≤ 2000) :
    clampOverhead x = x := by
  rw [clampOverhead_eq]
  omega

/-- On `steadyClock` every sleep of the loop wakes `latency` after its
deadline. -/
theorem steadyClock_wake (sleepTime latency : Int) (hlo : 0 ≤ latency) (hhi : latency ≤ 2000)
    (k : Nat) :
    (rateLimitedRun sleepTime 0 (steadyClock sleepTime latency) (k + 1)).lastTick =
      steadyClock sleepTime latency k ∧
    (rateLimitedRun sleepTime 0 (steadyClock sleepTime latency) (k + 1)).overhead =
      (if k = 0 then 0 else latency) ∧
    steadyClock sleepTime latency (k + 1) =
      (rateLimitedRun sleepTime 0 (steadyClock sleepTime latency) (k + 1)).sleepUntil +
        latency := by
  induction k with
  | zero =>
    simp [rateLimitedRun, rateLimitedUpdate, runInitLocals, steadyClock,
      clampOverhead_of_bounds]
  | succ k ih =>
    obtain ⟨h1, h2, _⟩ := ih
    have e : rateLimitedRun sleepTime 0 (steadyClock sleepTime latency) (k + 1 + 1) =
        rateLimitedUpdate sleepTime (steadyClock sleepTime latency (k + 1))
          (rateLimitedRun sleepTime 0 (steadyClock sleepTime latency) (k + 1)) := rfl
    rw [e]
    simp only [rateLimitedUpdate, h1, h2]
    have hk : steadyClock sleepTime latency (k + 1) = (k : Int) * sleepTime + sleepTime +
        latency := by
      simp [steadyClock]
      ring
    have hk2 : steadyClock sleepTime latency (k + 1 + 1) =
        (k : Int) * sleepTime + 2 * sleepTime + latency := by
      simp [steadyClock]
      ring
    have hc : steadyClock sleepTime latency k =
        (if k = 0 then (0 : Int) else k * sleepTime + latency) := rfl
    have hov : (if k = 0 then (0 : Int) else latency) +
        (steadyClock sleepTime latency (k + 1) - steadyClock sleepTime latency k - sleepTime) =
        latency := by
      rw [hk, hc]
      by_cases h0 : k = 0
      · simp [h0]
      · simp only [h0, if_false]
        ring
    rw [hov, clampOverhead_of_bounds latency (by omega) hhi, hk, hk2]
    refine ⟨trivial, by simp, by ring⟩
/-- The sleep interval from the binary exponent of the quotient, the integer
nearest to its significand and the integer part of the rounded quotient. -/
theorem microsPerTick_eq (tps : ℚ) (e n m : Int) (he : -1022 ≤ e)
    (h1 : (2 : ℚ) ^ e ≤ 1000000 / tps) (h2 : 1000000 / tps < (2 : ℚ) ^ (e + 1))
    (hn : |1000000 / tps / 2 ^ (e - 52) - n| < 1 / 2)
    (hm0 : 0 ≤ m) (hm63 : (m : ℚ) + 1 ≤ 2 ^ 63)
    (hm1 : (m : ℚ) ≤ n * 2 ^ (e - 52)) (hm2 : (n : ℚ) * 2 ^ (e - 52) < m + 1) :
    FThread.microsPerTick tps = m := by
  have hm0q : (0 : ℚ) ≤ m := by exact_mod_cast hm0
  have hfin : (n : ℚ) * 2 ^ (e - 52) < 2 ^ 1024 :=
    lt_of_lt_of_le (lt_of_lt_of_le hm2 hm63) (pow_le_pow_right₀ (by norm_num) (by norm_num))
  have hlow : -(2 : ℚ) ^ 63 - 1 < (n : ℚ) * 2 ^ (e - 52) := by
    have : (0 : ℚ) < 2 ^ 63 := by positivity
    linarith
  unfold FThread.microsPerTick
  rw [roundToDouble_eq _ e n he h1 h2 hn hfin]
  simp only [toInt64, hlow, lt_of_lt_of_le hm2 hm63, and_self, if_true, le_trans hm0q hm1]
  exact Int.floor_eq_iff.mpr ⟨hm1, hm2⟩

/-- The constructor computes 16666 microseconds for 60 ticks per second. -/
theorem microsPerTick_sixty : FThread.microsPerTick 60 = 16666 := by
  refine microsPerTick_eq 60 14 4581298449066667 16666 (by norm_num) ?_ ?_ ?_ (by norm_num)
    (by norm_num) ?_ ?_
  · norm_num
  · norm_num
  · rw [abs_lt]
    norm_num
  · norm_num
  · norm_num

/-- The quotient is rounded before it is cast: for the double nearest to 0.1
the exact quotient is below 10000000, the double quotient is 10000000. -/
theorem microsPerTick_tenth :
    (1000000 : ℚ) / (3602879701896397 / 36028797018963968) < 10000000 ∧
    FThread.microsPerTick (3602879701896397 / 36028797018963968) = 10000000 := by
  refine ⟨by norm_num, ?_⟩
  refine microsPerTick_eq _ 23 5368709120000000 10000000 (by norm_num) ?_ ?_ ?_ (by norm_num)
    (by norm_num) ?_ ?_
  · norm_num
  · norm_num
  · rw [abs_lt]
    norm_num
  · norm_num
  · norm_num

/-- A quotient that does not fit `int64_t`: for `tps = 2 ^ -44` the double
quotient is `1000000 * 2 ^ 44`, above `2 ^ 63`, and the cast gives
`INT64_MIN`. -/
theorem microsPerTick_tiny : FThread.microsPerTick (1 / 2 ^ 44) = INT64_MIN := by
  have hn : |(1000000 : ℚ) / (1 / 2 ^ 44) / 2 ^ ((63 : Int) - 52) - (8589934592000000 : Int)|
      < 1 / 2 := by
    norm_num
  have h := roundToDouble_eq (1000000 / (1 / 2 ^ 44)) 63 8589934592000000 (by norm_num)
    (by norm_num) (by norm_num) hn
    (lt_of_lt_of_le (b := (2 : ℚ) ^ 65) (by norm_num) (pow_le_pow_right₀ (by norm_num) (by norm_num)))
  unfold FThread.microsPerTick
  rw [h]
  have hbig : ¬ ((8589934592000000 : Int) : ℚ) * 2 ^ ((63 : Int) - 52) < 2 ^ 63 := by norm_num
  simp only [toInt64, hbig, and_false, if_false]
/-- The duration measured in the steady regime, from the third iteration
on, is the sleep interval. -/
theorem rateLimitedRun_duration (sleepTime start latency : Int) (clock : Nat → Int)
    (hlo : 0 ≤ latency) (hhi : latency ≤ 2000)
    (hwake : ∀ k, clock (k + 1) = (rateLimitedRun sleepTime start clock (k + 1)).sleepUntil + latency)
    (k : Nat) :
    (rateLimitedRun sleepTime start clock (k + 3)).duration = sleepTime := by
  have hp := rateLimitedRun_period sleepTime start latency clock hlo hhi hwake k
  have e : (rateLimitedRun sleepTime start clock (k + 3)).duration =
      clock (k + 2) - (rateLimitedRun sleepTime start clock (k + 2)).lastTick := rfl
  have e2 : (rateLimitedRun sleepTime start clock (k + 2)).lastTick = clock (k + 1) := rfl
  rw [e, e2, hp]

/-- The sleep interval of a worker constructed with a positive `tps`. -/
theorem construct_sleepTime (name : String) (tps : ℚ) (mode : TaskQueueMode) (threshold : Nat)
    (selfDestruct : Bool) (htps : 0 < tps) :
    (FThread.construct name tps mode threshold selfDestruct).sleepTime =
      FThread.microsPerTick tps := by
  simp [FThread.construct, not_le.mpr htps]

/-- C9 fails on the code. The sleep interval is the double quotient cast to
`int64_t`, not `1000000 / tps`. With 60 ticks per second it is 16666
microseconds: on a clock on which every sleep wakes 500 microseconds after its
deadline, the duration measured from the third iteration on is 16666 and not
`1000000 / 60`. With `tps = 2 ^ -44`, which is positive, the quotient
`1000000 * 2 ^ 44` does not fit `int64_t` and the sleep interval is
`INT64_MIN`, a negative number of microseconds. -/
theorem C9_sleepTime_is_not_the_quotient :
    (FThread.construct "W" 60 TaskQueueMode.QUEUE_ENABLED 250 false).sleepTime = 16666 ∧
    (∀ k, steadyClock 16666 500 (k + 1) =
      (rateLimitedRun (FThread.construct "W" 60 TaskQueueMode.QUEUE_ENABLED 250 false).sleepTime
        0 (steadyClock 16666 500) (k + 1)).sleepUntil + 500) ∧
    (∀ k, (rateLimitedRun (FThread.construct "W" 60 TaskQueueMode.QUEUE_ENABLED 250 false).sleepTime
        0 (steadyClock 16666 500) (k + 3)).duration = 16666) ∧
    (16666 : ℚ) ≠ 1000000 / 60 ∧
    (0 : ℚ) < 1 / 2 ^ 44 ∧
    (1000000 : ℚ) / (1 / 2 ^ 44) = 1000000 * 2 ^ 44 ∧
    (FThread.construct "W" (1 / 2 ^ 44) TaskQueueMode.QUEUE_ENABLED 250 false).noSleepThread =
      false ∧
    (FThread.construct "W" (1 / 2 ^ 44) TaskQueueMode.QUEUE_ENABLED 250 false).sleepTime =
      INT64_MIN ∧
    (FThread.construct "W" (1 / 2 ^ 44) TaskQueueMode.QUEUE_ENABLED 250 false).sleepTime < 0 := by
  have h60 : (FThread.construct "W" 60 TaskQueueMode.QUEUE_ENABLED 250 false).sleepTime =
      16666 := by
    rw [construct_sleepTime _ _ _ _ _ (by norm_num), microsPerTick_sixty]
  have htiny : (FThread.construct "W" (1 / 2 ^ 44) TaskQueueMode.QUEUE_ENABLED 250
      false).sleepTime = INT64_MIN := by
    rw [construct_sleepTime _ _ _ _ _ (by positivity), microsPerTick_tiny]
  have hpos : ¬ ((1 : ℚ) / 2 ^ 44 ≤ 0) := not_le.mpr (by positivity)
  have hwake : ∀ k, steadyClock 16666 500 (k + 1) =
      (rateLimitedRun 16666 0 (steadyClock 16666 500) (k + 1)).sleepUntil + 500 :=
    fun k => (steadyClock_wake 16666 500 (by norm_num) (by norm_num) k).2.2
  rw [h60, htiny]
  refine ⟨rfl, hwake, ?_, by norm_num, by positivity, by norm_num, ?_, rfl, by decide⟩
  · intro k
    exact rateLimitedRun_duration 16666 0 500 _ (by norm_num) (by norm_num) hwake k
  · simp only [FThread.construct, hpos, if_false]

/-- C9, with the sleep interval the code computes. For every finite
`tps > 0` whose quotient `1000000 / tps` fits `int64_t` (it is below
`2 ^ 63 - 512`), the constructor makes the worker rate-limited, with a sleep
interval `m_sleepTime` that is the double quotient cast to whole
microseconds: it is not negative and lies between
`1000000 / tps * (1 - 2 ^ -53) - 1` and `1000000 / tps * (1 + 2 ^ -53)`. When
every sleep of the rate-limited loop wakes a constant latency between 0 and
2000 microseconds after its deadline, the duration measured by the third and
every later iteration equals `m_sleepTime`, the overhead accumulator is then
constant (equal to the latency), and any `n` consecutive tick periods from the
second tick on add up to `n * m_sleepTime`: the average period is
`m_sleepTime`, less than one microsecond and a relative `2 ^ -53` away from
`1000000 / tps`. -/
theorem C9_steady_state_period (name : String) (tps : ℚ) (mode : TaskQueueMode)
    (threshold : Nat) (selfDestruct : Bool) (start latency : Int) (clock : Nat → Int)
    (htps : 0 < tps) (hfin : tps < 2 ^ 1024) (hfit : 1000000 / tps < 2 ^ 63 - 512)
    (hlo : 0 ≤ latency) (hhi : latency ≤ 2000)
    (hwake : ∀ k, clock (k + 1) =
      (rateLimitedRun (FThread.construct name tps mode threshold selfDestruct).sleepTime
        start clock (k + 1)).sleepUntil + latency) :
    (FThread.construct name tps mode threshold selfDestruct).noSleepThread = false ∧
    (FThread.construct name tps mode threshold selfDestruct).sleepTime =
      toInt64 (roundToDouble (1000000 / tps)) ∧
    0 ≤ (FThread.construct name tps mode threshold selfDestruct).sleepTime ∧
    ((FThread.construct name tps mode threshold selfDestruct).sleepTime : ℚ) ≤
      1000000 / tps * (1 + 1 / 2 ^ 53) ∧
    1000000 / tps * (1 - 1 / 2 ^ 53) - 1 <
      ((FThread.construct name tps mode threshold selfDestruct).sleepTime : ℚ) ∧
    (∀ k, (rateLimitedRun (FThread.construct name tps mode threshold selfDestruct).sleepTime
        start clock (k + 3)).duration =
      (FThread.construct name tps mode threshold selfDestruct).sleepTime) ∧
    (∀ k, (rateLimitedRun (FThread.construct name tps mode threshold selfDestruct).sleepTime
        start clock (k + 2)).overhead = latency) ∧
    (∀ k n, clock (k + 1 + n) - clock (k + 1) =
      n * (FThread.construct name tps mode threshold selfDestruct).sleepTime) := by
  have hs := construct_sleepTime name tps mode threshold selfDestruct htps
  obtain ⟨hb0, hb1, hb2⟩ := microsPerTick_bounds tps htps hfin hfit
  rw [hs] at hwake ⊢
  refine ⟨by simp [FThread.construct, not_le.mpr htps], rfl, hb0, hb1, hb2, ?_, ?_, ?_⟩
  · intro k
    exact rateLimitedRun_duration _ start latency clock hlo hhi hwake k
  · intro k
    exact rateLimitedRun_overhead _ start latency clock hlo hhi hwake k
  · intro k n
    induction n with
    | zero => simp
    | succ n ih =>
      have hp := rateLimitedRun_period _ start latency clock hlo hhi hwake (k + n)
      have e1 : k + 1 + (n + 1) = k + n + 2 := by omega
      have e2 : k + 1 + n = k + n + 1 := by omega
      rw [e1]
      rw [e2] at ih
      push_cast
      linarith

/-- Witness of C9: a worker built with 60 ticks per second on the steady clock
with latency 500 microseconds; its sleep interval is 16666 microseconds, less
than one microsecond below `1000000 / 60`, the fifth iteration measures it and
ten periods add up to ten times it. -/
theorem C9_steady_state_period_witness :
    (FThread.construct "W" 60 TaskQueueMode.QUEUE_ENABLED 5 false).sleepTime = 16666 ∧
    (1000000 : ℚ) / 60 * (1 - 1 / 2 ^ 53) - 1 < 16666 ∧
    (rateLimitedRun 16666 0 (steadyClock 16666 500) 5).duration = 16666 ∧
    steadyClock 16666 500 12 - steadyClock 16666 500 2 = 10 * 16666 := by
  have hs : (FThread.construct "W" 60 TaskQueueMode.QUEUE_ENABLED 5 false).sleepTime =
      16666 := by
    rw [construct_sleepTime _ _ _ _ _ (by norm_num), microsPerTick_sixty]
  have h := C9_steady_state_period "W" 60 TaskQueueMode.QUEUE_ENABLED 5 false 0 500
    (steadyClock 16666 500) (by norm_num) (by norm_num) (by norm_num) (by norm_num)
    (by norm_num)
    (by
      intro k
      rw [hs]
      exact (steadyClock_wake 16666 500 (by norm_num) (by norm_num) k).2.2)
  rw [hs] at h
  obtain ⟨_, _, _, _, h5, h6, _, h8⟩ := h
  refine ⟨hs, ?_, h6 2, ?_⟩
  · exact_mod_cast h5
  · have := h8 1 10
    simpa using this

/-! ### The world after one step -/

@[simp]
theorem World.set_heap_self (w : World) (p : Ptr) (x : Worker) : (w.set p x).heap p = x := by
  simp [World.set]

@[simp]
theorem World.set_heap_other (w : World) (p q : Ptr) (x : Worker) (h : q ≠ p) :
    (w.set p x).heap q = w.heap q := by
  simp [World.set, h]

@[simp]
theorem World.set_INSTANCES (w : World) (p : Ptr) (x : Worker) :
    (w.set p x).INSTANCES = w.INSTANCES := rfl

@[simp]
theorem World.set_log (w : World) (p : Ptr) (x : Worker) : (w.set p x).log = w.log := rfl

@[simp]
theorem World.setObj_heap_self (w : World) (p : Ptr) (o : FThread) :
    (w.setObj p o).heap p = { w.heap p with obj := o } := by
  simp [World.setObj]

@[simp]
theorem World.setObj_heap_other (w : World) (p q : Ptr) (o : FThread) (h : q ≠ p) :
    (w.setObj p o).heap q = w.heap q := by
  simp [World.setObj, h]

@[simp]
theorem World.setObj_INSTANCES (w : World) (p : Ptr) (o : FThread) :
    (w.setObj p o).INSTANCES = w.INSTANCES := rfl

@[simp]
theorem World.setObj_log (w : World) (p : Ptr) (o : FThread) : (w.setObj p o).log = w.log := rfl

@[simp]
theorem World.setPC_heap_self (w : World) (p : Ptr) (c : PC) :
    (w.setPC p c).heap p = { w.heap p with pc := c } := by
  simp [World.setPC]

@[simp]
theorem World.setPC_heap_other (w : World) (p q : Ptr) (c : PC) (h : q ≠ p) :
    (w.setPC p c).heap q = w.heap q := by
  simp [World.setPC, h]

@[simp]
theorem World.setPC_INSTANCES (w : World) (p : Ptr) (c : PC) :
    (w.setPC p c).INSTANCES = w.INSTANCES := rfl

@[simp]
theorem World.setPC_log (w : World) (p : Ptr) (c : PC) : (w.setPC p c).log = w.log := rfl

@[simp]
theorem World.emit_heap (w : World) (e : Event) : (w.emit e).heap = w.heap := rfl

@[simp]
theorem World.emit_INSTANCES (w : World) (e : Event) : (w.emit e).INSTANCES = w.INSTANCES := rfl

@[simp]
theorem World.emit_log (w : World) (e : Event) : (w.emit e).log = w.log ++ [e] := rfl

/-- A schedule in two parts. -/
theorem exec_append (w : World) (s t : List Label) :
    exec w (s ++ t) = (exec w s).bind (fun v => exec v t) := by
  induction s generalizing w with
  | nil => simp [exec]
  | cons l s ih =>
    simp only [List.cons_append, exec]
    cases step w l with
    | none => simp
    | some w1 => simpa using ih w1

/-- Induction over the reachable worlds. -/
theorem Reachable.rec_on {P : World → Prop} (h0 : P World.init)
    (hstep : ∀ w l v, Reachable w → P w → step w l = some v → P v) :
    ∀ w, Reachable w → P w := by
  have key : ∀ s w, exec World.init s = some w → P w := by
    intro s
    induction s using List.reverseRecOn with
    | nil =>
      intro w h
      simp [exec] at h
      subst h
      exact h0
    | append_singleton s l ih =>
      intro w h
      rw [exec_append] at h
      cases hs : exec World.init s with
      | none => simp [hs] at h
      | some v =>
        simp only [hs, Option.some_bind, exec] at h
        cases hl : step v l with
        | none => simp [hl] at h
        | some v1 =>
          simp only [hl] at h
          injection h with h
          subst h
          exact hstep v l v1 ⟨s, hs⟩ (ih v hs) hl
  intro w ⟨s, hs⟩
  exact key s w hs

/-- A step from a reachable world leads to a reachable world. -/
theorem Reachable.step {w v : World} {l : Label} (hw : Reachable w) (h : step w l = some v) :
    Reachable v := by
  obtain ⟨s, hs⟩ := hw
  refine ⟨s ++ [l], ?_⟩
  rw [exec_append, hs]
  simp [exec, h]

/-- A schedule from a reachable world leads to a reachable world. -/
theorem Reachable.exec {w v : World} {s : List Label} (hw : Reachable w)
    (h : exec w s = some v) : Reachable v := by
  obtain ⟨s0, hs⟩ := hw
  refine ⟨s0 ++ s, ?_⟩
  rw [exec_append, hs]
  simpa using h

/-- The world of a schedule that can be taken is reachable. -/
theorem reachable_runWorld (s : List Label) (h : (exec World.init s).isSome = true) :
    Reachable (runWorld s) := by
  refine ⟨s, ?_⟩
  unfold runWorld
  cases he : exec World.init s with
  | none => simp [he] at h
  | some v => rfl

/-- The loop of `start` appends to the waiting list, in the order of the
array, the workers that are not running. -/
theorem startLoop_eq_filter (running : Ptr → Bool) (waitFor waiting : List Ptr) :
    FThread.startLoop running waitFor waiting =
      waiting ++ waitFor.filter (fun q => !running q) := by
  induction waitFor generalizing waiting with
  | nil => simp [FThread.startLoop]
  | cons q rest ih =>
    simp only [FThread.startLoop, ih]
    cases h : running q <;> simp [h]

/-- The body of `start` on an object with an empty waiting list. -/
theorem start_waitingList (self : FThread) (running : Ptr → Bool) (waitFor : List Ptr)
    (h : self.waitingList = []) :
    (self.start running waitFor).waitingList = waitFor.filter (fun q => !running q) := by
  unfold FThread.start
  split_ifs with hl
  · simp [startLoop_eq_filter, h]
  · have : waitFor = [] := by
      cases waitFor with
      | nil => rfl
      | cons a l => simp at hl
    simp [this, h]

/-- C7: on a freshly constructed worker `p`, `start(waitFor)` (which can be
called: the worker has no spawned thread yet) sets started = true and
stopping = false, leaves running = false, and leaves the waiting list equal to
the sub-sequence of `waitFor` of the workers whose running flag is false at
the call; when that sub-sequence is empty (every referenced worker is running,
or the array is empty) the first step of the spawned thread finds the list
empty and goes to the start hook without waiting. -/
theorem C7_start_fills_waitingList (w : World) (p : Ptr) (name : String) (tps : ℚ)
    (mode : TaskQueueMode) (threshold : Nat) (selfDestruct : Bool) (waitFor : List Ptr)
    (now : Nat) (hp : p ∉ w.INSTANCES) (hq : ∀ q ∈ waitFor, q = p ∨ q ∈ w.INSTANCES) :
    ∃ w1 w2, step w (Label.construct p name tps mode threshold selfDestruct) = some w1 ∧
      step w1 (Label.start p waitFor) = some w2 ∧
      (w2.heap p).obj.started = true ∧
      (w2.heap p).obj.stopping = false ∧
      (w2.heap p).obj.running = false ∧
      (w2.heap p).obj.waitingList =
        waitFor.filter (fun q => (w1.heap q).obj.running = false) ∧
      (w2.heap p).pc = PC.waitCheck ∧
      ((∀ q ∈ waitFor, (w1.heap q).obj.running = true) →
        (w2.heap p).obj.waitingList = [] ∧
        ∃ w3, step w2 (Label.thread p now) = some w3 ∧ (w3.heap p).pc = PC.startHook ∧
          w3.log = w2.log) := by
  have h1 : step w (Label.construct p name tps mode threshold selfDestruct) =
      some (({ w with INSTANCES := w.INSTANCES ++ [p] } : World).set p
        { obj := FThread.construct name tps mode threshold selfDestruct
          pc := PC.idle
          loc := default }) := by
    simp only [step, if_neg hp]
  generalize hw1 : (({ w with INSTANCES := w.INSTANCES ++ [p] } : World).set p
        { obj := FThread.construct name tps mode threshold selfDestruct
          pc := PC.idle
          loc := default }) = w1 at h1
  have hheap : w1.heap p = { obj := FThread.construct name tps mode threshold selfDestruct
                             pc := PC.idle
                             loc := default } := by
    rw [← hw1]
    simp
  have hinst : w1.INSTANCES = w.INSTANCES ++ [p] := by
    rw [← hw1]
    rfl
  have h2 : step w1 (Label.start p waitFor) = some (w1.set p
      { w1.heap p with
        obj := (w1.heap p).obj.start (fun q => (w1.heap q).obj.running) waitFor
        pc := PC.waitCheck }) := by
    simp only [step]
    rw [if_pos]
    refine ⟨by simp [hinst], by simp [hheap], ?_⟩
    intro q hqm
    rcases hq q hqm with h | h
    · simp [hinst, h]
    · simp [hinst, h]
  refine ⟨w1, _, h1, h2, ?_⟩
  have hwl : ∀ running : Ptr → Bool,
      ((FThread.construct name tps mode threshold selfDestruct).start running
        waitFor).waitingList = waitFor.filter (fun q => !running q) :=
    fun running => start_waitingList _ running waitFor rfl
  have hflags : ∀ running : Ptr → Bool,
      ((FThread.construct name tps mode threshold selfDestruct).start running
        waitFor).started = true ∧
      ((FThread.construct name tps mode threshold selfDestruct).start running
        waitFor).stopping = false ∧
      ((FThread.construct name tps mode threshold selfDestruct).start running
        waitFor).running = false := by
    intro running
    unfold FThread.start
    split_ifs <;> simp [FThread.construct]
  simp only [World.set_heap_self, hheap]
  refine ⟨(hflags _).1, (hflags _).2.1, (hflags _).2.2, ?_, trivial, ?_⟩
  · rw [hwl]
    congr 1
    funext q
    simp
  · intro hall
    have he : ((FThread.construct name tps mode threshold selfDestruct).start
        (fun q => (w1.heap q).obj.running) waitFor).waitingList = [] := by
      rw [hwl, List.filter_eq_nil_iff]
      intro q hqm
      simpa using hall q hqm
    refine ⟨he, ?_⟩
    simp only [step, threadStep, preStart, run, processTaskQueue, World.set_heap_self, he, List.isEmpty_nil, if_true]
    exact ⟨_, rfl, by simp, by simp⟩

/-- Witness of C7: with worker 1 constructed but not started and worker 2
running, a new worker 3 started with the array 1, 2, 1 waits for 1 and 1. -/
theorem C7_start_fills_waitingList_witness :
    ∃ w1 w2, step (runWorld oneIdleOneRunning)
        (Label.construct 3 "A" 60 TaskQueueMode.QUEUE_ENABLED 250 false) = some w1 ∧
      step w1 (Label.start 3 [1, 2, 1]) = some w2 ∧
      (w2.heap 3).obj.started = true ∧
      (w2.heap 3).obj.waitingList = [1, 1] := by
  obtain ⟨w1, w2, h1, h2, h3, _, _, h6, _⟩ :=
    C7_start_fills_waitingList (runWorld oneIdleOneRunning) 3 "A" 60
      TaskQueueMode.QUEUE_ENABLED 250 false [1, 2, 1] 0 (by decide) (by decide)
  refine ⟨w1, w2, h1, h2, h3, ?_⟩
  rw [h6]
  have e : w1 = ({ runWorld oneIdleOneRunning with
      INSTANCES := (runWorld oneIdleOneRunning).INSTANCES ++ [3] } : World).set 3
        { obj := FThread.construct "A" 60 TaskQueueMode.QUEUE_ENABLED 250 false
          pc := PC.idle
          loc := default } := by
    have h1b := h1
    simp only [step] at h1b
    rw [if_neg (by decide)] at h1b
    exact (Option.some.inj h1b).symm
  subst e
  decide

/-- What `stop()` does on a worker that has already stopped (started, running
and stopping all false): it sets stopping to true and changes no other field,
so `hasStarted()` and `isRunning()` return the same values (false) as before
and `isStopping()` returns true; a second `stop()` changes nothing more. -/
theorem stop_on_stopped_worker (o : FThread) (hs : o.started = false)
    (hr : o.running = false) (ht : o.stopping = false) :
    o.stop = { o with stopping := true } ∧
    o.stop.hasStarted = o.hasStarted ∧
    o.stop.isRunning = o.isRunning ∧
    o.stop.isStopping = true ∧
    o.stop.stop = o.stop := by
  cases o
  simp only [FThread.stop, FThread.hasStarted, FThread.isRunning, FThread.isStopping] at *
  subst hs hr ht
  simp

/-! ### What a step leaves unchanged -/

/-- The tick indices of a log in two parts. -/
theorem tickIndices_append (p : Ptr) (a b : List Event) :
    tickIndices p (a ++ b) = tickIndices p a ++ tickIndices p b := by
  induction a with
  | nil => rfl
  | cons e a ih =>
    cases e <;> simp only [List.cons_append, tickIndices] <;> try exact ih
    split_ifs <;> simp [ih]

/-- The called tasks of a log in two parts. -/
theorem calledTasks_append (p : Ptr) (a b : List Event) :
    calledTasks p (a ++ b) = calledTasks p a ++ calledTasks p b := by
  induction a with
  | nil => rfl
  | cons e a ih =>
    cases e <;> simp only [List.cons_append, calledTasks] <;> try exact ih
    split_ifs <;> simp [ih]

/-- A step of the thread of another worker changes nothing of worker `p` but,
in the registry scan, its waiting list. -/
theorem threadStep_other (w v : World) (q p : Ptr) (now : Nat)
    (h : threadStep w q now = some v) (hne : q ≠ p) :
    (v.heap p).pc = (w.heap p).pc ∧ (v.heap p).loc = (w.heap p).loc ∧
    (v.heap p).obj = { (w.heap p).obj with waitingList := (v.heap p).obj.waitingList } ∧
    tickIndices p v.log = tickIndices p w.log ∧
    calledTasks p v.log = calledTasks p w.log ∧
    (p ∈ v.INSTANCES ↔ p ∈ w.INSTANCES) := by
  have hpq : p ≠ q := fun e => hne e.symm
  simp only [threadStep, preStart, run, processTaskQueue] at h
  split at h
  all_goals (try split at h)
  all_goals (try split at h)
  all_goals cases h
  all_goals (try simp [hpq, hne, tickIndices_append, calledTasks_append, tickIndices,
    calledTasks])
  · rename_i a _ _ _ _ _
    by_cases hq : p = a
    · subst hq
      simp
    · simp [hq]

/-- A step on another worker changes nothing of worker `p` but, in the
registry scan, its waiting list. -/
theorem step_other (w v : World) (l : Label) (p : Ptr)
    (h : step w l = some v) (hne : l.target ≠ p) :
    (v.heap p).pc = (w.heap p).pc ∧ (v.heap p).loc = (w.heap p).loc ∧
    (v.heap p).obj = { (w.heap p).obj with waitingList := (v.heap p).obj.waitingList } ∧
    tickIndices p v.log = tickIndices p w.log ∧
    calledTasks p v.log = calledTasks p w.log ∧
    (p ∈ v.INSTANCES ↔ p ∈ w.INSTANCES) := by
  have hpq : ∀ q, l.target = q → p ≠ q := fun q e1 e2 => hne (e1.trans e2.symm)
  cases l with
  | thread q now => exact threadStep_other w v q p now h hne
  | construct q name tps mode threshold selfDestruct =>
    simp only [step] at h
    split at h
    · cases h
    · injection h with h
      subst h
      simp [hpq q rfl]
  | start q waitFor =>
    simp only [step] at h
    split at h
    · injection h with h
      subst h
      simp [hpq q rfl]
    · cases h
  | stop q =>
    simp only [step] at h
    split at h
    · injection h with h
      subst h
      simp [hpq q rfl]
    · cases h
  | addTask q task =>
    simp only [step] at h
    split at h
    · injection h with h
      subst h
      simp [hpq q rfl]
    · cases h
  | setTicksPerSecond q newTPS =>
    simp only [step] at h
    split at h
    · injection h with h
      subst h
      simp [hpq q rfl]
    · cases h

/-- A step that is neither a step of the thread of `p` nor the construction of
a new object at `p` keeps the thread of `p` where it is (a call of `start`
apart, which needs the thread to be absent), keeps the tick counter, the front
buffer, the mode and what the log says of `p`, does not set running, and
changes the back buffer by the accepted `addTask` only. -/
theorem step_frame (w v : World) (l : Label) (p : Ptr) (h : step w l = some v)
    (ht : l.isThreadOf p = false) (hc : l.isConstructOf p = false) :
    (v.heap p).obj.tickCount = (w.heap p).obj.tickCount ∧
    (v.heap p).obj.frontTaskQueue = (w.heap p).obj.frontTaskQueue ∧
    (v.heap p).obj.backTaskQueue =
      (w.heap p).obj.backTaskQueue ++ l.enqueued p (w.heap p).obj ∧
    (v.heap p).obj.taskQueueMode = (w.heap p).obj.taskQueueMode ∧
    ((v.heap p).obj.running = true → (w.heap p).obj.running = true) ∧
    tickIndices p v.log = tickIndices p w.log ∧
    calledTasks p v.log = calledTasks p w.log ∧
    (p ∈ v.INSTANCES ↔ p ∈ w.INSTANCES) ∧
    (l.isStartOf p = false → (v.heap p).pc = (w.heap p).pc ∧
      (v.heap p).obj.started = (w.heap p).obj.started) ∧
    (l.isStartOf p = true → (w.heap p).pc = PC.idle ∧ (v.heap p).pc = PC.waitCheck ∧
      (v.heap p).obj.started = true ∧ p ∈ w.INSTANCES) := by
  by_cases hne : l.target = p
  · cases l with
    | thread q now =>
      simp only [Label.target] at hne
      simp [Label.isThreadOf, hne] at ht
    | construct q name tps mode threshold selfDestruct =>
      simp only [Label.target] at hne
      simp [Label.isConstructOf, hne] at hc
    | start q waitFor =>
      simp only [Label.target] at hne
      subst hne
      simp only [step] at h
      split at h
      · rename_i hg
        cases h
        have hflags : ∀ o : FThread, ∀ r : Ptr → Bool,
            (o.start r waitFor).tickCount = o.tickCount ∧
            (o.start r waitFor).frontTaskQueue = o.frontTaskQueue ∧
            (o.start r waitFor).backTaskQueue = o.backTaskQueue ∧
            (o.start r waitFor).taskQueueMode = o.taskQueueMode ∧
            (o.start r waitFor).running = o.running ∧
            (o.start r waitFor).started = true := by
          intro o r
          unfold FThread.start
          split_ifs <;> simp
        simp [Label.enqueued, Label.isStartOf, hflags, hg.2.1, hg.1]
      · cases h
    | stop q =>
      simp only [Label.target] at hne
      subst hne
      simp only [step] at h
      split at h
      · cases h
        simp [Label.enqueued, Label.isStartOf, FThread.stop]
      · cases h
    | addTask q task =>
      simp only [Label.target] at hne
      subst hne
      simp only [step] at h
      split at h
      · cases h
        simp only [Label.enqueued, Label.isStartOf, FThread.addTask, World.setObj_heap_self,
          World.setObj_log, World.setObj_INSTANCES]
        by_cases hr : (w.heap q).obj.running = true
        · by_cases hm : (w.heap q).obj.taskQueueMode = TaskQueueMode.QUEUE_DISABLED
          · simp [hr, hm]
          · simp [hr, hm]
        · simp [hr]
      · cases h
    | setTicksPerSecond q newTPS =>
      simp only [Label.target] at hne
      subst hne
      simp only [step] at h
      split at h
      · cases h
        simp only [Label.enqueued, Label.isStartOf, FThread.setTicksPerSecond,
          World.setObj_heap_self, World.setObj_log, World.setObj_INSTANCES]
        split_ifs <;> simp
      · cases h
  · obtain ⟨h1, _, h3, h4, h5, h6⟩ := step_other w v l p h hne
    have he : l.enqueued p (w.heap p).obj = [] := by
      cases l <;> simp [Label.enqueued]
      intro hq
      exact absurd hq hne
    have hs : l.isStartOf p = false := by
      cases l <;> simp [Label.isStartOf]
      intro hq
      exact absurd hq hne
    rw [h3, he]
    simp [h1, h4, h5, h6, hs]

/-! ### The tick counter -/

/-- A step of the thread of `p` that is not the call of the tick hook leaves
the tick counter and the tick indices of the log as they are. -/
theorem threadStep_no_tick (w v : World) (p : Ptr) (now : Nat)
    (h : threadStep w p now = some v) (hpc : ∀ r, (w.heap p).pc ≠ PC.tickHook r) :
    (v.heap p).obj.tickCount = (w.heap p).obj.tickCount ∧
    tickIndices p v.log = tickIndices p w.log := by
  simp only [threadStep, preStart, run, processTaskQueue] at h
  split at h
  all_goals (try split at h)
  all_goals (try split at h)
  all_goals cases h
  all_goals (try simp [tickIndices_append, tickIndices, FThread.swapTaskQueues])
  · rename_i a _ _ _ _ _
    by_cases hq : p = a
    · subst hq
      simp
    · simp [hq]
  · rename_i hh
    exact absurd hh (hpc false)
  · rename_i hh
    exact absurd hh (hpc true)

/-- The call of the tick hook: the hook gets the tick counter as index, the
counter goes to its successor. -/
theorem threadStep_tick (w v : World) (p : Ptr) (now : Nat) (r : Bool)
    (h : threadStep w p now = some v) (hpc : (w.heap p).pc = PC.tickHook r) :
    v.log = w.log ++ [Event.onTick p (v.heap p).obj.tickTime (w.heap p).obj.tickCount] ∧
    (v.heap p).obj.tickCount = nextTick (w.heap p).obj.tickCount ∧
    tickIndices p v.log = tickIndices p w.log ++ [(w.heap p).obj.tickCount] ∧
    (v.heap p).pc = (if r then PC.sleepUntil else PC.loopCheckTick) := by
  simp only [threadStep, preStart, run, processTaskQueue, hpc] at h
  cases r <;> cases h <;> simp [tickIndices_append, tickIndices]

/-- Any step that does not construct a new object at `p` either is the call
of the tick hook of `p`, or leaves the tick counter and the tick indices. -/
theorem step_tick_or_same (w v : World) (l : Label) (p : Ptr) (h : step w l = some v)
    (hc : l.isConstructOf p = false) :
    ((∃ now r, l = Label.thread p now ∧ (w.heap p).pc = PC.tickHook r) ∧
      v.log = w.log ++ [Event.onTick p (v.heap p).obj.tickTime (w.heap p).obj.tickCount] ∧
      (v.heap p).obj.tickCount = nextTick (w.heap p).obj.tickCount ∧
      tickIndices p v.log = tickIndices p w.log ++ [(w.heap p).obj.tickCount]) ∨
    ((¬ ∃ now r, l = Label.thread p now ∧ (w.heap p).pc = PC.tickHook r) ∧
      (v.heap p).obj.tickCount = (w.heap p).obj.tickCount ∧
      tickIndices p v.log = tickIndices p w.log) := by
  by_cases ht : l.isThreadOf p = true
  · cases l <;> simp [Label.isThreadOf] at ht
    rename_i q now
    subst ht
    by_cases hpc : ∃ r, (w.heap q).pc = PC.tickHook r
    · obtain ⟨r, hr⟩ := hpc
      obtain ⟨h1, h2, h3, _⟩ := threadStep_tick w v q now r h hr
      exact Or.inl ⟨⟨now, r, rfl, hr⟩, h1, h2, h3⟩
    · have hn : ∀ r, (w.heap q).pc ≠ PC.tickHook r := fun r hr => hpc ⟨r, hr⟩
      obtain ⟨h1, h2⟩ := threadStep_no_tick w v q now h hn
      refine Or.inr ⟨?_, h1, h2⟩
      rintro ⟨_, r, _, hr⟩
      exact hn r hr
  · have ht2 : l.isThreadOf p = false := by simpa using ht
    obtain ⟨h1, _, _, _, _, h6, _⟩ := step_frame w v l p h ht2 hc
    refine Or.inr ⟨?_, h1, h6⟩
    rintro ⟨now, r, hl, _⟩
    subst hl
    simp [Label.isThreadOf] at ht2

/-- The post-increment iterated from 0: the counter after `n` increments is
`n` modulo `ULONG_MAX + 1`. -/
theorem nextTick_iterate_zero (n : Nat) : nextTick^[n] 0 = n % (ULONG_MAX + 1) := by
  induction n with
  | zero => rfl
  | succ n ih =>
    rw [Function.iterate_succ_apply', ih]
    simp only [nextTick]
    exact Nat.mod_add_mod n (ULONG_MAX + 1) 1

/-- Over any schedule without a construction at `p`, the tick hook of `p` is
called with the successive values of the tick counter: the counter is
incremented `n` times and the hook gets the `n` values it went through. -/
theorem exec_tickIndices (p : Ptr) (s : List Label) :
    ∀ w v, (∀ l ∈ s, l.isConstructOf p = false) → exec w s = some v →
      ∃ n, (v.heap p).obj.tickCount = nextTick^[n] (w.heap p).obj.tickCount ∧
        tickIndices p v.log = tickIndices p w.log ++
          (List.range n).map (fun i => nextTick^[i] (w.heap p).obj.tickCount) := by
  induction s with
  | nil =>
    intro w v _ h
    simp only [exec] at h
    cases h
    exact ⟨0, by simp, by simp⟩
  | cons l rest ih =>
    intro w v hc h
    simp only [exec] at h
    cases hl : step w l with
    | none => simp [hl] at h
    | some w1 =>
      simp only [hl] at h
      obtain ⟨n, hn1, hn2⟩ := ih w1 v (fun l hm => hc l (List.mem_cons_of_mem _ hm)) h
      rcases step_tick_or_same w w1 l p hl (hc l (List.mem_cons_self _ _)) with
        ⟨_, _, h2, h3⟩ | ⟨_, h2, h3⟩
      · refine ⟨n + 1, by rw [hn1, h2, Function.iterate_succ_apply], ?_⟩
        rw [hn2, h3, h2, List.append_assoc, List.range_succ_eq_map, List.map_cons,
          List.map_map]
        rfl
      · exact ⟨n, by rw [hn1, h2], by rw [hn2, h3, h2]⟩

/-- A trace that ends: either it is one step long, or it goes on after its
first world. -/
theorem execTrace_cons_snoc (w v : World) (l : Label) (rest : List Label) (mid : List World)
    (h : execTrace w (l :: rest) = some (mid ++ [v])) :
    ∃ w1, step w l = some w1 ∧
      ((mid = [] ∧ v = w1) ∨
        (∃ mid1, mid = w1 :: mid1 ∧ execTrace w1 rest = some (mid1 ++ [v]))) := by
  simp only [execTrace] at h
  cases hl : step w l with
  | none => simp [hl] at h
  | some w1 =>
    simp only [hl] at h
    refine ⟨w1, rfl, ?_⟩
    cases ht : execTrace w1 rest with
    | none => simp [ht] at h
    | some t =>
      simp only [ht, Option.map_some', Option.some.injEq] at h
      cases mid with
      | nil =>
        simp at h
        exact Or.inl ⟨rfl, h.1.symm⟩
      | cons u mid1 =>
        simp only [List.cons_append, List.cons.injEq] at h
        exact Or.inr ⟨mid1, by rw [h.1], by rw [h.2]⟩

/-- A step of the thread of `p` inside a tick iteration, before the call of
the tick hook, stays there. -/
theorem threadStep_tickBody (w v : World) (p : Ptr) (now : Nat)
    (h : threadStep w p now = some v) (hb : (w.heap p).pc.tickBody = true)
    (hpc : ∀ r, (w.heap p).pc ≠ PC.tickHook r) : (v.heap p).pc.tickBody = true := by
  cases hpc0 : (w.heap p).pc
  case tickBegin =>
    simp only [threadStep, preStart, run, processTaskQueue, hpc0] at h
    split at h <;> cases h <;> simp only [World.set_heap_self] <;> split_ifs <;> rfl
  case drainSwap c =>
    simp only [threadStep, preStart, run, processTaskQueue, hpc0] at h
    cases h
    rw [hpc0] at hb
    cases c <;> simp_all [PC.tickBody]
  case drainPop c =>
    simp only [threadStep, preStart, run, processTaskQueue, hpc0] at h
    rw [hpc0] at hb
    split at h <;> cases h <;> cases c <;> simp_all [PC.tickBody, DrainCaller.next]
  case tickHook r => exact absurd hpc0 (hpc r)
  all_goals (rw [hpc0] at hb; simp [PC.tickBody] at hb)

/-- A step of the thread of `p` at the wait that ends a rate-limited iteration
leads to the loop condition. -/
theorem threadStep_sleepUntil (w v : World) (p : Ptr) (now : Nat)
    (h : threadStep w p now = some v) (hpc : (w.heap p).pc = PC.sleepUntil) :
    (v.heap p).pc = PC.loopCheckTick := by
  simp only [threadStep, preStart, run, processTaskQueue, hpc] at h
  cases h
  simp

/-- One tick iteration, from any point of it to the next loop condition: the
tick hook is called exactly once, with the tick counter as index, and the
counter goes to its successor. `c0` and `i0` are the counter and the tick indices at
the start of the iteration. -/
theorem iteration_aux (p : Ptr) (c0 : Nat) (i0 : List Nat) (s : List Label) :
    ∀ w v mid,
      (((w.heap p).pc.tickBody = true ∧ (w.heap p).obj.tickCount = c0 ∧
          tickIndices p w.log = i0) ∨
        ((w.heap p).pc = PC.sleepUntil ∧ (w.heap p).obj.tickCount = nextTick c0 ∧
          tickIndices p w.log = i0 ++ [c0])) →
      (∀ l ∈ s, l.isConstructOf p = false) →
      execTrace w s = some (mid ++ [v]) →
      (∀ u ∈ mid, (u.heap p).pc ≠ PC.loopCheckTick) →
      (v.heap p).pc = PC.loopCheckTick →
      (v.heap p).obj.tickCount = nextTick c0 ∧ tickIndices p v.log = i0 ++ [c0] := by
  induction s with
  | nil =>
    intro w v mid _ _ h _ _
    simp [execTrace] at h
  | cons l rest ih =>
    intro w v mid hph hc h hmid hv
    obtain ⟨w1, hl, hcase⟩ := execTrace_cons_snoc w v l rest mid h
    have hcl := hc l (List.mem_cons_self _ _)
    have hcr : ∀ l ∈ rest, l.isConstructOf p = false :=
      fun l hm => hc l (List.mem_cons_of_mem _ hm)
    -- the phase after the step, or the end of the iteration
    have hnext : (((w1.heap p).pc.tickBody = true ∧ (w1.heap p).obj.tickCount = c0 ∧
          tickIndices p w1.log = i0) ∨
        ((w1.heap p).pc = PC.sleepUntil ∧ (w1.heap p).obj.tickCount = nextTick c0 ∧
          tickIndices p w1.log = i0 ++ [c0])) ∨
        ((w1.heap p).pc = PC.loopCheckTick ∧ (w1.heap p).obj.tickCount = nextTick c0 ∧
          tickIndices p w1.log = i0 ++ [c0]) := by
      by_cases hth : l.isThreadOf p = true
      · cases l <;> simp [Label.isThreadOf] at hth
        rename_i q now
        subst hth
        rcases hph with ⟨hb, hcnt, hidx⟩ | ⟨hsl, hcnt, hidx⟩
        · by_cases hpc : ∃ r, (w.heap q).pc = PC.tickHook r
          · obtain ⟨r, hr⟩ := hpc
            obtain ⟨_, h2, h3, h4⟩ := threadStep_tick w w1 q now r hl hr
            cases r
            · exact Or.inr ⟨by simpa using h4, by rw [h2, hcnt], by rw [h3, hidx, hcnt]⟩
            · exact Or.inl (Or.inr ⟨by simpa using h4, by rw [h2, hcnt], by rw [h3, hidx, hcnt]⟩)
          · have hn : ∀ r, (w.heap q).pc ≠ PC.tickHook r := fun r hr => hpc ⟨r, hr⟩
            obtain ⟨h1, h2⟩ := threadStep_no_tick w w1 q now hl hn
            exact Or.inl (Or.inl ⟨threadStep_tickBody w w1 q now hl hb hn,
              by rw [h1, hcnt], by rw [h2, hidx]⟩)
        · have hn : ∀ r, (w.heap q).pc ≠ PC.tickHook r := by
            intro r hr
            rw [hsl] at hr
            cases hr
          obtain ⟨h1, h2⟩ := threadStep_no_tick w w1 q now hl hn
          exact Or.inr ⟨threadStep_sleepUntil w w1 q now hl hsl, by rw [h1, hcnt],
            by rw [h2, hidx]⟩
      · have ht2 : l.isThreadOf p = false := by simpa using hth
        obtain ⟨h1, _, _, _, _, h6, _, _, h9, h10⟩ := step_frame w w1 l p hl ht2 hcl
        have hns : l.isStartOf p = false := by
          by_contra hst
          have hidle := (h10 (by simpa using hst)).1
          rcases hph with ⟨hb, _, _⟩ | ⟨hsl, _, _⟩
          · rw [hidle] at hb
            simp [PC.tickBody] at hb
          · rw [hidle] at hsl
            cases hsl
        have hpcs := (h9 hns).1
        rcases hph with ⟨hb, hcnt, hidx⟩ | ⟨hsl, hcnt, hidx⟩
        · exact Or.inl (Or.inl ⟨by rw [hpcs]; exact hb, by rw [h1, hcnt], by rw [h6, hidx]⟩)
        · exact Or.inl (Or.inr ⟨by rw [hpcs]; exact hsl, by rw [h1, hcnt], by rw [h6, hidx]⟩)
    rcases hcase with ⟨_, hv1⟩ | ⟨mid1, hm, ht⟩
    · subst hv1
      rcases hnext with (⟨hb, _, _⟩ | ⟨hsl, _, _⟩) | ⟨_, h2, h3⟩
      · rw [hv] at hb
        simp [PC.tickBody] at hb
      · rw [hv] at hsl
        cases hsl
      · exact ⟨h2, h3⟩
    · subst hm
      have hw1 : (w1.heap p).pc ≠ PC.loopCheckTick := hmid w1 (List.mem_cons_self _ _)
      rcases hnext with hph1 | ⟨h1, _, _⟩
      · exact ih w1 v mid1 hph1 hcr ht (fun u hu => hmid u (List.mem_cons_of_mem _ hu)) hv
      · exact absurd h1 hw1

/-- The world of a schedule that is continued. -/
theorem exec_runWorld_append (a b : List Label) (h : (exec World.init (a ++ b)).isSome = true) :
    exec (runWorld a) b = some (runWorld (a ++ b)) := by
  unfold runWorld
  rw [exec_append] at h ⊢
  cases ha : exec World.init a with
  | none => simp [ha] at h
  | some u =>
    simp only [ha, Option.some_bind] at h ⊢
    cases hb : exec u b with
    | none => simp [hb] at h
    | some v => simp [hb]

/-! ### The drain of the task queue -/

/-- A trace has one world for each step. -/
theorem execTrace_length (s : List Label) :
    ∀ w t, execTrace w s = some t → t.length = s.length := by
  induction s with
  | nil =>
    intro w t h
    simp only [execTrace] at h
    cases h
    rfl
  | cons l rest ih =>
    intro w t h
    simp only [execTrace] at h
    cases hl : step w l with
    | none => simp [hl] at h
    | some w1 =>
      simp only [hl] at h
      cases ht : execTrace w1 rest with
      | none => simp [ht] at h
      | some t1 =>
        simp only [ht, Option.map_some', Option.some.injEq] at h
        subst h
        simp [ih w1 t1 ht]

/-- A trace of one world is the trace of a schedule of one step. -/
theorem execTrace_cons_single (w v : World) (l : Label) (rest : List Label)
    (h : execTrace w (l :: rest) = some [v]) : rest = [] := by
  have := execTrace_length _ w _ h
  simp at this
  exact this

/-- A live worker stays alive over a step that is not of its own thread. -/
theorem step_isConstructOf (w v : World) (l : Label) (p : Ptr) (h : step w l = some v)
    (hp : p ∈ w.INSTANCES) : l.isConstructOf p = false := by
  cases l <;> simp [Label.isConstructOf]
  rename_i q _ _ _ _ _
  intro hq
  subst hq
  simp [step, hp] at h

/-- One step of the loop of the drain: the thread of `p` invokes the callable
at the head of the front buffer and pops it, or leaves the loop when the front
buffer is empty. -/
theorem threadStep_drainPop (w v : World) (p : Ptr) (now : Nat) (c : DrainCaller)
    (h : threadStep w p now = some v) (hpc : (w.heap p).pc = PC.drainPop c) :
    (p ∈ v.INSTANCES ↔ p ∈ w.INSTANCES) ∧
    (v.heap p).obj.backTaskQueue = (w.heap p).obj.backTaskQueue ∧
    (((w.heap p).obj.frontTaskQueue = [] ∧ (v.heap p).pc = c.next ∧
        (v.heap p).obj.frontTaskQueue = [] ∧ calledTasks p v.log = calledTasks p w.log) ∨
      (∃ t rest, (w.heap p).obj.frontTaskQueue = t :: rest ∧ (v.heap p).pc = PC.drainPop c ∧
        (v.heap p).obj.frontTaskQueue = rest ∧
        calledTasks p v.log = calledTasks p w.log ++ [t])) := by
  simp only [threadStep, preStart, run, processTaskQueue, hpc] at h
  split at h
  · rename_i hf
    cases h
    simp [hf]
  · rename_i t rest hf
    cases h
    simp only [hf, World.setObj_INSTANCES, World.emit_INSTANCES, World.setObj_heap_self,
      World.emit_heap, World.setObj_log, World.emit_log, calledTasks_append, calledTasks,
      if_true, true_and]
    exact Or.inr ⟨t, rest, rfl, hpc, rfl, rfl⟩

/-- The loop of the drain, from any point of it to its end: the callables of
the front buffer are invoked in order, each once; the front buffer ends empty;
the back buffer gets the tasks enqueued meanwhile. -/
theorem drain_aux (p : Ptr) (c : DrainCaller) (s : List Label) :
    ∀ w v mid, (w.heap p).pc = PC.drainPop c → p ∈ w.INSTANCES →
      execTrace w s = some (mid ++ [v]) →
      (∀ u ∈ mid, (u.heap p).pc = PC.drainPop c) →
      (v.heap p).pc = c.next →
      calledTasks p v.log = calledTasks p w.log ++ (w.heap p).obj.frontTaskQueue ∧
      (v.heap p).obj.frontTaskQueue = [] ∧
      (v.heap p).obj.backTaskQueue = (w.heap p).obj.backTaskQueue ++ enqueuedTasks p w s := by
  have hnext : c.next ≠ PC.drainPop c := by cases c <;> simp [DrainCaller.next]
  induction s with
  | nil =>
    intro w v mid _ _ h _ _
    simp [execTrace] at h
  | cons l rest ih =>
    intro w v mid hpc hp h hmid hv
    obtain ⟨w1, hl, hcase⟩ := execTrace_cons_snoc w v l rest mid h
    have hcl := step_isConstructOf w w1 l p hl hp
    simp only [enqueuedTasks, hl]
    by_cases hth : l.isThreadOf p = true
    · cases l <;> simp [Label.isThreadOf] at hth
      rename_i q now
      subst hth
      obtain ⟨hi, hb, hstep⟩ := threadStep_drainPop w w1 q now c hl hpc
      rcases hstep with ⟨hf, hpc1, hf1, hc1⟩ | ⟨t, tl, hf, hpc1, hf1, hc1⟩
      · rcases hcase with ⟨hm, hv1⟩ | ⟨mid1, hm, _⟩
        · subst hv1 hm
          have hr : rest = [] := execTrace_cons_single w v _ rest h
          subst hr
          simp [hc1, hf, hf1, hb, Label.enqueued, enqueuedTasks]
        · subst hm
          have := hmid w1 (List.mem_cons_self _ _)
          rw [hpc1] at this
          exact absurd this hnext
      · rcases hcase with ⟨_, hv1⟩ | ⟨mid1, hm, ht⟩
        · subst hv1
          rw [hpc1] at hv
          exact absurd hv.symm hnext
        · subst hm
          obtain ⟨h1, h2, h3⟩ := ih w1 v mid1 hpc1 (hi.mpr hp) ht
            (fun u hu => hmid u (List.mem_cons_of_mem _ hu)) hv
          refine ⟨?_, h2, ?_⟩
          · rw [h1, hc1, hf, hf1]
            simp
          · rw [h3, hb]
            simp [Label.enqueued]
    · have ht2 : l.isThreadOf p = false := by simpa using hth
      obtain ⟨_, h2, h3, _, _, _, h7, h8, h9, h10⟩ := step_frame w w1 l p hl ht2 hcl
      have hns : l.isStartOf p = false := by
        by_contra hst
        have hidle := (h10 (by simpa using hst)).1
        rw [hidle] at hpc
        cases hpc
      have hpcs := (h9 hns).1
      rcases hcase with ⟨_, hv1⟩ | ⟨mid1, hm, ht⟩
      · subst hv1
        rw [hpcs, hpc] at hv
        exact absurd hv.symm hnext
      · subst hm
        obtain ⟨i1, i2, i3⟩ := ih w1 v mid1 (by rw [hpcs, hpc]) (h8.mpr hp) ht
          (fun u hu => hmid u (List.mem_cons_of_mem _ hu)) hv
        refine ⟨by rw [i1, h7, h2], i2, ?_⟩
        rw [i3, h3, List.append_assoc]

/-- A step of the thread of `p` keeps: a worker with a live thread is
registered, and the front buffer is empty outside the loop of the drain. -/
theorem threadStep_front_empty (w v : World) (p : Ptr) (now : Nat)
    (h : threadStep w p now = some v)
    (h1 : (w.heap p).pc ≠ PC.idle → p ∈ w.INSTANCES)
    (h2 : (∀ c, (w.heap p).pc ≠ PC.drainPop c) → (w.heap p).obj.frontTaskQueue = []) :
    ((v.heap p).pc ≠ PC.idle → p ∈ v.INSTANCES) ∧
    ((∀ c, (v.heap p).pc ≠ PC.drainPop c) → (v.heap p).obj.frontTaskQueue = []) := by
  cases hpc0 : (w.heap p).pc
  all_goals simp only [hpc0] at h1 h2
  all_goals simp only [threadStep, preStart, run, processTaskQueue, hpc0] at h
  all_goals (try split at h)
  all_goals (try split at h)
  all_goals cases h
  all_goals (try (simp_all [DrainCaller.next]; done))
  · rename_i q _ _ _ _ _
    by_cases hq : p = q
    · subst hq
      simp_all
    · simp_all

/-- The object a construction puts at its address. -/
theorem step_construct_heap (w v : World) (l : Label) (p : Ptr) (h : step w l = some v)
    (hc : l.isConstructOf p = true) :
    (v.heap p).pc = PC.idle ∧ (v.heap p).obj.frontTaskQueue = [] ∧
    (v.heap p).obj.waitingList = [] ∧ (v.heap p).obj.running = false ∧
    (v.heap p).obj.started = false := by
  cases l <;> simp [Label.isConstructOf] at hc
  subst hc
  simp only [step] at h
  split at h
  · cases h
  · cases h
    simp [FThread.construct]

/-- In every reachable world a worker with a live thread is registered, and
its front buffer is empty outside the loop of the drain. -/
theorem reachable_front_empty (w : World) (hr : Reachable w) (p : Ptr) :
    ((w.heap p).pc ≠ PC.idle → p ∈ w.INSTANCES) ∧
    ((∀ c, (w.heap p).pc ≠ PC.drainPop c) → (w.heap p).obj.frontTaskQueue = []) := by
  refine Reachable.rec_on (P := fun w => ((w.heap p).pc ≠ PC.idle → p ∈ w.INSTANCES) ∧
    ((∀ c, (w.heap p).pc ≠ PC.drainPop c) → (w.heap p).obj.frontTaskQueue = [])) ?_ ?_ w hr
  · simp [World.init, FThread.construct]
  · intro w l v _ ih hl
    by_cases hth : l.isThreadOf p = true
    · cases l <;> simp [Label.isThreadOf] at hth
      subst hth
      exact threadStep_front_empty w v _ _ hl ih.1 ih.2
    · have ht2 : l.isThreadOf p = false := by simpa using hth
      by_cases hc : l.isConstructOf p = true
      · obtain ⟨h1, h2, _⟩ := step_construct_heap w v l p hl hc
        exact ⟨fun hn => absurd h1 hn, fun _ => h2⟩
      · have hc2 : l.isConstructOf p = false := by simpa using hc
        obtain ⟨_, h2, _, _, _, _, _, h8, h9, h10⟩ := step_frame w v l p hl ht2 hc2
        by_cases hs : l.isStartOf p = true
        · obtain ⟨s1, s2, _, s4⟩ := h10 hs
          refine ⟨fun _ => h8.mpr s4, fun _ => ?_⟩
          rw [h2]
          exact ih.2 (by rw [s1]; intro c; simp)
        · have hs2 : l.isStartOf p = false := by simpa using hs
          have hpc := (h9 hs2).1
          rw [hpc, h2, h8]
          exact ih

/-- The trace of a schedule whose first step is known. -/
theorem execTrace_cons_of_step (w w1 : World) (l : Label) (rest : List Label)
    (h : step w l = some w1) :
    execTrace w (l :: rest) = (execTrace w1 rest).map (fun t => w1 :: t) := by
  simp only [execTrace, h]

/-- The loop of the drain ends: when only the thread of `p` moves, it leaves
the loop after one step for each callable of the front buffer and one more. -/
theorem drainPop_alone (p : Ptr) (c : DrainCaller) (now : Nat) (n : Nat) :
    ∀ w, (w.heap p).pc = PC.drainPop c → (w.heap p).obj.frontTaskQueue.length = n →
      ∃ mid v, execTrace w (List.replicate (n + 1) (Label.thread p now)) = some (mid ++ [v]) ∧
        (∀ u ∈ mid, (u.heap p).pc = PC.drainPop c) ∧ (v.heap p).pc = c.next := by
  induction n with
  | zero =>
    intro w hpc hf
    have hf0 : (w.heap p).obj.frontTaskQueue = [] := List.length_eq_zero.mp hf
    refine ⟨[], w.setPC p c.next, ?_, by simp, by simp⟩
    simp [execTrace, step, threadStep, preStart, run, processTaskQueue, hpc, hf0]
  | succ n ih =>
    intro w hpc hf
    obtain ⟨t, tl, hft⟩ : ∃ t tl, (w.heap p).obj.frontTaskQueue = t :: tl := by
      cases hfl : (w.heap p).obj.frontTaskQueue with
      | nil => simp [hfl] at hf
      | cons t tl => exact ⟨t, tl, rfl⟩
    obtain ⟨w1, hstep, hpc1, hlen⟩ : ∃ w1, step w (Label.thread p now) = some w1 ∧
        (w1.heap p).pc = PC.drainPop c ∧ (w1.heap p).obj.frontTaskQueue.length = n := by
      refine ⟨(w.emit (Event.call p t)).setObj p { (w.heap p).obj with frontTaskQueue := tl },
        by simp [step, threadStep, preStart, run, processTaskQueue, hpc, hft], by simp [hpc], ?_⟩
      rw [hft] at hf
      simpa using hf
    obtain ⟨mid, v, h1, h2, h3⟩ := ih w1 hpc1 hlen
    refine ⟨w1 :: mid, v, ?_, ?_, h3⟩
    · rw [List.replicate_succ, execTrace_cons_of_step w w1 _ _ hstep, h1]
      rfl
    · intro u hu
      rcases List.mem_cons.mp hu with hu | hu
      · subst hu
        exact hpc1
      · exact h2 u hu

/-- C1: in every reachable world in which the thread of worker `p` is about
to drain its task queue, the front buffer is empty; a drain, from the swap of
the buffers to the exit of its loop, whatever the other threads do
meanwhile, invokes exactly the callables that were in the back buffer at the
swap, each once and in the order they were appended; the tasks `addTask`
enqueues during the drain are not invoked by it and are exactly what the back
buffer holds after it; the front buffer is empty after it; and the drain does
end (after one step for the swap, one for each callable and one more when
only the thread of `p` moves). -/
theorem C1_drain_invokes_back_buffer_in_order (w : World) (hr : Reachable w) (p : Ptr)
    (c : DrainCaller) (hpc : (w.heap p).pc = PC.drainSwap c) :
    (w.heap p).obj.frontTaskQueue = [] ∧
    (∀ now rest mid v,
      execTrace w (Label.thread p now :: rest) = some (mid ++ [v]) →
      (∀ u ∈ mid, (u.heap p).pc = PC.drainPop c) →
      (v.heap p).pc = c.next →
      calledTasks p v.log = calledTasks p w.log ++ (w.heap p).obj.backTaskQueue ∧
      (v.heap p).obj.frontTaskQueue = [] ∧
      (v.heap p).obj.backTaskQueue = enqueuedTasks p w (Label.thread p now :: rest)) ∧
    (∀ now, ∃ mid v,
      execTrace w (List.replicate ((w.heap p).obj.backTaskQueue.length + 2)
        (Label.thread p now)) = some (mid ++ [v]) ∧
      (∀ u ∈ mid, (u.heap p).pc = PC.drainPop c) ∧ (v.heap p).pc = c.next) := by
  obtain ⟨hinst, hfront⟩ := reachable_front_empty w hr p
  have hf : (w.heap p).obj.frontTaskQueue = [] := hfront (by rw [hpc]; intro c; simp)
  have hp : p ∈ w.INSTANCES := hinst (by rw [hpc]; simp)
  have hnext : c.next ≠ PC.drainPop c := by cases c <;> simp [DrainCaller.next]
  -- the swap
  have hswap : ∀ now, ∃ w1, step w (Label.thread p now) = some w1 ∧
      (w1.heap p).pc = PC.drainPop c ∧ p ∈ w1.INSTANCES ∧
      (w1.heap p).obj.frontTaskQueue = (w.heap p).obj.backTaskQueue ∧
      (w1.heap p).obj.backTaskQueue = [] ∧
      calledTasks p w1.log = calledTasks p w.log := by
    intro now
    simp only [step, threadStep, preStart, run, processTaskQueue, hpc]
    refine ⟨_, rfl, by simp, ?_, by simp [FThread.swapTaskQueues], by
      simp [FThread.swapTaskQueues, hf], ?_⟩
    · split_ifs <;> simpa using hp
    · split_ifs <;> simp [calledTasks_append, calledTasks]
  refine ⟨hf, ?_, ?_⟩
  · intro now rest mid v ht hmid hv
    obtain ⟨w1, hl, hpc1, hp1, hf1, hb1, hc1⟩ := hswap now
    obtain ⟨w2, hl2, hcase⟩ := execTrace_cons_snoc w v _ rest mid ht
    rw [hl] at hl2
    cases hl2
    simp only [enqueuedTasks, hl, Label.enqueued, List.nil_append]
    rcases hcase with ⟨_, hv1⟩ | ⟨mid1, hm, ht1⟩
    · subst hv1
      rw [hpc1] at hv
      exact absurd hv.symm hnext
    · subst hm
      obtain ⟨h1, h2, h3⟩ := drain_aux p c rest w1 v mid1 hpc1 hp1 ht1
        (fun u hu => hmid u (List.mem_cons_of_mem _ hu)) hv
      exact ⟨by rw [h1, hc1, hf1], h2, by rw [h3, hb1]; simp⟩
  · intro now
    obtain ⟨w1, hl, hpc1, _, hf1, _, _⟩ := hswap now
    obtain ⟨mid, v, h1, h2, h3⟩ := drainPop_alone p c now
      (w.heap p).obj.backTaskQueue.length w1 hpc1 (by rw [hf1])
    refine ⟨w1 :: mid, v, ?_, ?_, h3⟩
    · rw [List.replicate_succ, execTrace_cons_of_step w w1 _ _ hl, h1]
      rfl
    · intro u hu
      rcases List.mem_cons.mp hu with hu | hu
      · subst hu
        exact hpc1
      · exact h2 u hu

/-- Witness of C1: worker 1 at the start of a drain with the tasks 7 and 8 in
its back buffer; the drain invokes 7 and 8 and leaves both buffers empty. -/
theorem C1_drain_invokes_back_buffer_in_order_witness :
    ∃ mid v, execTrace (runWorld beforeDrain) (List.replicate 4 (Label.thread 1 20)) =
        some (mid ++ [v]) ∧
      calledTasks 1 v.log = [7, 8] ∧ (v.heap 1).obj.frontTaskQueue = [] ∧
      (v.heap 1).pc = PC.tickHook false := by
  have h := C1_drain_invokes_back_buffer_in_order (runWorld beforeDrain)
    (reachable_runWorld beforeDrain (by decide)) 1 DrainCaller.noSleep (by decide)
  obtain ⟨mid, v, h1, h2, h3⟩ := h.2.2 20
  have hb : ((runWorld beforeDrain).heap 1).obj.backTaskQueue = [7, 8] := by decide
  rw [hb] at h1
  obtain ⟨h4, h5, _⟩ := h.2.1 20 (List.replicate 3 (Label.thread 1 20)) mid v h1 h2 h3
  refine ⟨mid, v, h1, ?_, h5, h3⟩
  rw [h4, hb]
  decide

/-! ### The flags -/

/-- A step of the thread of `p` keeps: running only inside the loops of
`run()`, and started from the call of `start` to the reset of the flag. -/
theorem threadStep_running_started (w v : World) (p : Ptr) (now : Nat)
    (h : threadStep w p now = some v)
    (h1 : (w.heap p).obj.running = true → (w.heap p).pc.inLoop = true)
    (h2 : (w.heap p).pc.beforeReset = true → (w.heap p).obj.started = true) :
    ((v.heap p).obj.running = true → (v.heap p).pc.inLoop = true) ∧
    ((v.heap p).pc.beforeReset = true → (v.heap p).obj.started = true) := by
  cases hpc0 : (w.heap p).pc
  all_goals simp only [hpc0, PC.inLoop, PC.beforeReset] at h1 h2
  all_goals simp only [threadStep, preStart, run, processTaskQueue, hpc0] at h
  all_goals (try split at h)
  all_goals (try split at h)
  all_goals cases h
  all_goals (try (simp_all [DrainCaller.next, PC.inLoop, PC.beforeReset,
    FThread.swapTaskQueues]; done))
  all_goals (try (rename_i c _ _; cases c <;>
    simp_all [DrainCaller.next, PC.inLoop, PC.beforeReset]; done))
  · rename_i q _ _ _ _ _
    by_cases hq : p = q
    · subst hq
      simp_all [PC.inLoop, PC.beforeReset]
    · simp_all [PC.inLoop, PC.beforeReset]

/-- In every reachable world a running worker has its thread inside the loops
of `run()`, and a worker whose thread has not yet reset the flag is started. -/
theorem reachable_running_started (w : World) (hr : Reachable w) (p : Ptr) :
    ((w.heap p).obj.running = true → (w.heap p).pc.inLoop = true) ∧
    ((w.heap p).pc.beforeReset = true → (w.heap p).obj.started = true) := by
  refine Reachable.rec_on (P := fun w =>
    ((w.heap p).obj.running = true → (w.heap p).pc.inLoop = true) ∧
    ((w.heap p).pc.beforeReset = true → (w.heap p).obj.started = true)) ?_ ?_ w hr
  · simp [World.init, FThread.construct, PC.beforeReset]
  · intro w l v _ ih hl
    by_cases hth : l.isThreadOf p = true
    · cases l <;> simp [Label.isThreadOf] at hth
      subst hth
      exact threadStep_running_started w v _ _ hl ih.1 ih.2
    · have ht2 : l.isThreadOf p = false := by simpa using hth
      by_cases hc : l.isConstructOf p = true
      · obtain ⟨h1, _, _, h4, _⟩ := step_construct_heap w v l p hl hc
        simp [h1, h4, PC.beforeReset]
      · have hc2 : l.isConstructOf p = false := by simpa using hc
        obtain ⟨_, _, _, _, h5, _, _, _, h9, h10⟩ := step_frame w v l p hl ht2 hc2
        by_cases hs : l.isStartOf p = true
        · obtain ⟨s1, s2, s3, _⟩ := h10 hs
          refine ⟨fun hrun => ?_, fun _ => s3⟩
          have := ih.1 (h5 hrun)
          rw [s1] at this
          simp [PC.inLoop] at this
        · have hs2 : l.isStartOf p = false := by simpa using hs
          obtain ⟨hpc, hst⟩ := h9 hs2
          rw [hpc, hst]
          exact ⟨fun hrun => ih.1 (h5 hrun), ih.2⟩

/-- A step of the thread of `p` past the entry of `run()` does not set
running and does not go back before the entry. -/
theorem threadStep_after_run (w v : World) (p : Ptr) (now : Nat)
    (h : threadStep w p now = some v) (h1 : (w.heap p).pc.beforeRun = false) :
    (v.heap p).pc.beforeRun = false ∧
    ((v.heap p).obj.running = true → (w.heap p).obj.running = true) := by
  cases hpc0 : (w.heap p).pc
  all_goals simp only [hpc0, PC.beforeRun] at h1
  all_goals simp only [threadStep, preStart, run, processTaskQueue, hpc0] at h
  all_goals (try split at h)
  all_goals (try split at h)
  all_goals cases h
  all_goals (try (simp_all [DrainCaller.next, PC.beforeRun, FThread.swapTaskQueues]; done))
  all_goals (try (rename_i c _ _; cases c <;> simp_all [DrainCaller.next, PC.beforeRun]))

/-- Once running is false past the entry of `run()`, it stays false as long as
`start` is not called again. -/
theorem exec_running_stays_false (p : Ptr) (s : List Label) :
    ∀ w v, (w.heap p).pc.beforeRun = false → (w.heap p).obj.running = false →
      (∀ l ∈ s, l.isStartOf p = false) → exec w s = some v →
      (v.heap p).pc.beforeRun = false ∧ (v.heap p).obj.running = false := by
  induction s with
  | nil =>
    intro w v h1 h2 _ h
    simp only [exec] at h
    cases h
    exact ⟨h1, h2⟩
  | cons l rest ih =>
    intro w v h1 h2 hs h
    simp only [exec] at h
    cases hl : step w l with
    | none => simp [hl] at h
    | some w1 =>
      simp only [hl] at h
      refine ih w1 v ?_ ?_ (fun l hm => hs l (List.mem_cons_of_mem _ hm)) h
      all_goals
        by_cases hth : l.isThreadOf p = true
        · cases l <;> simp [Label.isThreadOf] at hth
          subst hth
          obtain ⟨a1, a2⟩ := threadStep_after_run w w1 _ _ hl h1
          first
            | exact a1
            | (by_contra hc
               rw [a2 (by simpa using hc)] at h2
               cases h2)
        · have ht2 : l.isThreadOf p = false := by simpa using hth
          by_cases hc : l.isConstructOf p = true
          · obtain ⟨c1, _, _, c4, _⟩ := step_construct_heap w w1 l p hl hc
            first
              | exact c4
              | (rw [c1]; rfl)
          · have hc2 : l.isConstructOf p = false := by simpa using hc
            obtain ⟨_, _, _, _, h5, _, _, _, h9, _⟩ := step_frame w w1 l p hl ht2 hc2
            have hpc := (h9 (hs l (List.mem_cons_self _ _))).1
            first
              | (rw [hpc]; exact h1)
              | (by_contra hc
                 rw [h5 (by simpa using hc)] at h2
                 cases h2)

/-- C8: in every world reachable from the initial one by constructions, by
calls of the interface (`start` on a worker without a live spawned thread) and
by the steps of the spawned threads, a worker that is running is started; and
once running is false while the thread is inside the loop of `run()`, it stays
false in every continuation in which `start` is not called again on the
worker. -/
theorem C8_running_implies_started (w : World) (hr : Reachable w) (p : Ptr) :
    ((w.heap p).obj.isRunning = true → (w.heap p).obj.hasStarted = true) ∧
    (∀ s v, (w.heap p).pc.inLoop = true → (w.heap p).obj.isRunning = false →
      (∀ l ∈ s, l.isStartOf p = false) → exec w s = some v →
      (v.heap p).obj.isRunning = false) := by
  obtain ⟨h1, h2⟩ := reachable_running_started w hr p
  refine ⟨fun hrun => h2 ?_, ?_⟩
  · have := h1 hrun
    revert this
    cases (w.heap p).pc <;> simp [PC.inLoop, PC.beforeReset]
  · intro s v hl hrun hs h
    refine (exec_running_stays_false p s w v ?_ hrun hs h).2
    revert hl
    cases (w.heap p).pc <;> simp [PC.inLoop, PC.beforeRun]

/-- Witness of C8: worker 2 of `oneIdleOneRunning` is running, hence started;
worker 1 of `wholeLife`, stopped inside its second tick, never runs again. -/
theorem C8_running_implies_started_witness :
    ((runWorld oneIdleOneRunning).heap 2).obj.hasStarted = true ∧
    ((runWorld wholeLife).heap 1).obj.isRunning = false := by
  refine ⟨(C8_running_implies_started (runWorld oneIdleOneRunning)
      (reachable_runWorld _ (by decide)) 2).1 (by decide), ?_⟩
  exact (C8_running_implies_started (runWorld (wholeLife.take 13))
      (reachable_runWorld _ (by decide)) 1).2 (wholeLife.drop 13) (runWorld wholeLife)
      (by decide) (by decide) (by decide)
      (exec_runWorld_append (wholeLife.take 13) (wholeLife.drop 13) (by decide))

/-! ### The waiting list -/

/-- Whatever `removeFromWaitingList` returns, it removes the head of the list
and only when the head is the thread. -/
theorem removeFromWaitingList_some (waiting l : List Ptr) (q : Ptr)
    (h : removeFromWaitingList waiting q = some l) :
    (waiting = [] ∧ l = []) ∨ waiting = q :: l := by
  cases waiting with
  | nil =>
    simp [removeFromWaitingList] at h
    exact Or.inl ⟨rfl, h⟩
  | cons x rest =>
    simp only [removeFromWaitingList] at h
    split at h
    · rename_i hx
      cases h
      exact Or.inr (by rw [hx])
    · cases h

/-- The loop of the source and its result: with any fuel the loop gives the
result of `removeFromWaitingList`, or is still running. -/
theorem removeFromWaitingListLoop_eq (thread : Ptr) (waiting : List Ptr) (fuel : Nat) :
    removeFromWaitingListLoop thread waiting 0 (fuel + 1) =
      removeFromWaitingList waiting thread := by
  induction fuel with
  | zero =>
    cases waiting with
    | nil => simp [removeFromWaitingListLoop, removeFromWaitingList]
    | cons x rest =>
      by_cases hx : x = thread <;>
        simp [removeFromWaitingListLoop, removeFromWaitingList, hx]
  | succ n ih =>
    rw [removeFromWaitingListLoop]
    cases waiting with
    | nil => simp [removeFromWaitingList]
    | cons x rest =>
      by_cases hx : x = thread
      · simp [removeFromWaitingList, hx]
      · simp only [List.length_cons, Nat.zero_lt_succ, ↓reduceDIte, List.get_eq_getElem,
          List.getElem_cons_zero, hx, ↓reduceIte]
        rw [ih]

/-- A step changes the waiting list of a worker `a` only in `start` on `a`, in
the construction of an object at `a`, or in the registry scan of a thread
`q`, which removes `q` from the head of the list. -/
theorem step_waitingList (w v : World) (l : Label) (a : Ptr) (h : step w l = some v)
    (hc : l.isConstructOf a = false) (hs : l.isStartOf a = false) :
    (v.heap a).obj.waitingList = (w.heap a).obj.waitingList ∨
    ∃ q now rest, l = Label.thread q now ∧ (w.heap q).pc = PC.scan (a :: rest) ∧
      removeFromWaitingList (w.heap a).obj.waitingList q = some (v.heap a).obj.waitingList := by
  cases l with
  | thread q now =>
    simp only [step] at h
    cases hpc0 : (w.heap q).pc
    all_goals simp only [threadStep, preStart, run, processTaskQueue, hpc0] at h
    all_goals (try split at h)
    all_goals (try split at h)
    all_goals cases h
    all_goals (try (by_cases hq : a = q <;> simp_all [FThread.swapTaskQueues]; done))
    · rename_i r0 _ x rest hr _ l hrem
      cases hr
      by_cases hax : a = x
      · subst hax
        right
        refine ⟨q, now, rest, rfl, hpc0, ?_⟩
        rw [hrem]
        by_cases haq : a = q
        · subst haq
          simp
        · simp [haq]
      · left
        by_cases haq : a = q
        · subst haq
          simp [hax]
        · simp [haq, hax]
  | construct q name tps mode threshold selfDestruct =>
    simp [Label.isConstructOf] at hc
    simp only [step] at h
    split at h
    · cases h
    · cases h
      left
      simp [Ne.symm hc]
  | start q waitFor =>
    simp [Label.isStartOf] at hs
    simp only [step] at h
    split at h
    · cases h
      left
      simp [Ne.symm hs]
    · cases h
  | stop q =>
    simp only [step] at h
    split at h
    · cases h
      left
      by_cases hq : a = q <;> simp [hq, FThread.stop]
    · cases h
  | addTask q task =>
    simp only [step] at h
    split at h
    · cases h
      left
      by_cases hq : a = q
      · subst hq
        simp only [World.setObj_heap_self, FThread.addTask]
        split_ifs <;> rfl
      · simp [hq]
    · cases h
  | setTicksPerSecond q newTPS =>
    simp only [step] at h
    split at h
    · cases h
      left
      by_cases hq : a = q
      · subst hq
        simp only [World.setObj_heap_self, FThread.setTicksPerSecond]
        split_ifs <;> rfl
      · simp [hq]
    · cases h

/-- A step only appends to the log, and it appends the call of the start hook
of a worker `a` only as the step of the thread of `a` at that call. -/
theorem step_log (w v : World) (l : Label) (h : step w l = some v) :
    ∃ es, v.log = w.log ++ es ∧
      ∀ a, Event.onStart a ∈ es → (w.heap a).pc = PC.startHook ∧ l.isThreadOf a = true := by
  cases l with
  | thread q now =>
    simp only [step, threadStep, preStart, run, processTaskQueue] at h
    split at h
    all_goals (try split at h)
    all_goals (try split at h)
    all_goals cases h
    all_goals first
      | exact ⟨[], (List.append_nil _).symm, fun a ha => absurd ha (List.not_mem_nil _)⟩
      | (refine ⟨[_], rfl, ?_⟩
         intro a ha
         simp at ha
         done)
      | (refine ⟨[_], rfl, ?_⟩
         intro a ha
         simp at ha
         subst ha
         simp_all [Label.isThreadOf])
  | construct q name tps mode threshold selfDestruct =>
    simp only [step] at h
    split at h <;> cases h
    exact ⟨[], (List.append_nil _).symm, fun a ha => absurd ha (List.not_mem_nil _)⟩
  | start q waitFor =>
    simp only [step] at h
    split at h <;> cases h
    exact ⟨[], (List.append_nil _).symm, fun a ha => absurd ha (List.not_mem_nil _)⟩
  | stop q =>
    simp only [step] at h
    split at h <;> cases h
    exact ⟨[], (List.append_nil _).symm, fun a ha => absurd ha (List.not_mem_nil _)⟩
  | addTask q task =>
    simp only [step] at h
    split at h <;> cases h
    exact ⟨[], (List.append_nil _).symm, fun a ha => absurd ha (List.not_mem_nil _)⟩
  | setTicksPerSecond q newTPS =>
    simp only [step] at h
    split at h <;> cases h
    exact ⟨[], (List.append_nil _).symm, fun a ha => absurd ha (List.not_mem_nil _)⟩

/-- A step of the thread of `q` keeps: during the registry scan the start hook
of `q` has been called. -/
theorem threadStep_scan_started (w v : World) (q : Ptr) (now : Nat)
    (h : threadStep w q now = some v)
    (h1 : (∃ r, (w.heap q).pc = PC.scan r) → Event.onStart q ∈ w.log) :
    (∃ r, (v.heap q).pc = PC.scan r) → Event.onStart q ∈ v.log := by
  simp only [threadStep, preStart, run, processTaskQueue] at h
  split at h
  all_goals (try split at h)
  all_goals (try split at h)
  all_goals cases h
  all_goals (try (simp_all [DrainCaller.next]; done))
  all_goals (rename_i c _ _ _; cases c <;> simp_all [DrainCaller.next])

/-- A step of the thread of `p` keeps: the waiting list is empty once the
thread is past the wait of `preStart`. -/
theorem threadStep_waiting (w v : World) (p : Ptr) (now : Nat)
    (h : threadStep w p now = some v)
    (h1 : (w.heap p).obj.waitingList ≠ [] → (w.heap p).pc.waiting = true) :
    (v.heap p).obj.waitingList ≠ [] → (v.heap p).pc.waiting = true := by
  simp only [threadStep, preStart, run, processTaskQueue] at h
  split at h
  all_goals (try split at h)
  all_goals (try split at h)
  all_goals cases h
  all_goals (try (simp_all [DrainCaller.next, PC.waiting, FThread.swapTaskQueues]; done))
  · rename_i x rest hpc _ l hrem
    have hw : (w.heap p).obj.waitingList = [] := by
      by_contra hne
      have := h1 hne
      rw [hpc] at this
      simp [PC.waiting] at this
    by_cases hq : p = x
    · subst hq
      rw [hw] at hrem
      simp [removeFromWaitingList] at hrem
      subst hrem
      simp
    · simp [hq, hw]

/-- In every reachable world the waiting list of a worker is empty once its
thread is past the wait of `preStart`, and a thread in its registry scan has
called its start hook. -/
theorem reachable_waiting (w : World) (hr : Reachable w) (p : Ptr) :
    ((w.heap p).obj.waitingList ≠ [] → (w.heap p).pc.waiting = true) ∧
    ((∃ r, (w.heap p).pc = PC.scan r) → Event.onStart p ∈ w.log) := by
  refine Reachable.rec_on (P := fun w =>
    ((w.heap p).obj.waitingList ≠ [] → (w.heap p).pc.waiting = true) ∧
    ((∃ r, (w.heap p).pc = PC.scan r) → Event.onStart p ∈ w.log)) ?_ ?_ w hr
  · simp [World.init, FThread.construct]
  · intro w l v _ ih hl
    obtain ⟨es, hes, _⟩ := step_log w v l hl
    by_cases hth : l.isThreadOf p = true
    · cases l <;> simp [Label.isThreadOf] at hth
      subst hth
      exact ⟨threadStep_waiting w v _ _ hl ih.1, threadStep_scan_started w v _ _ hl ih.2⟩
    · have ht2 : l.isThreadOf p = false := by simpa using hth
      by_cases hc : l.isConstructOf p = true
      · obtain ⟨h1, _, h3, _⟩ := step_construct_heap w v l p hl hc
        simp [h1, h3]
      · have hc2 : l.isConstructOf p = false := by simpa using hc
        obtain ⟨_, _, _, _, _, _, _, _, h9, h10⟩ := step_frame w v l p hl ht2 hc2
        by_cases hs : l.isStartOf p = true
        · obtain ⟨_, s2, _⟩ := h10 hs
          simp [s2, PC.waiting]
        · have hs2 : l.isStartOf p = false := by simpa using hs
          have hpc := (h9 hs2).1
          rw [hpc]
          refine ⟨fun hne => ih.1 ?_, fun hsc => ?_⟩
          · rcases step_waitingList w v l p hl hc2 hs2 with hw | ⟨q, _, _, _, _, hrem⟩
            · rw [← hw]
              exact hne
            · rcases removeFromWaitingList_some _ _ q hrem with ⟨_, h2⟩ | h2
              · exact absurd h2 hne
              · rw [h2]
                simp
          · rw [hes]
            exact List.mem_append_left _ (ih.2 hsc)

/-! ### The order of the start hooks -/

/-- What `takeWhile` keeps of a list it keeps of any longer list. -/
theorem mem_takeWhile_append {α : Type} (f : α → Bool) (a b : List α) (x : α)
    (h : x ∈ a.takeWhile f) : x ∈ (a ++ b).takeWhile f := by
  induction a with
  | nil => simp at h
  | cons y a ih =>
    simp only [List.cons_append, List.takeWhile_cons] at h ⊢
    cases hy : f y
    · simp [hy] at h
    · simp only [hy, if_true] at h ⊢
      rcases List.mem_cons.mp h with h | h
      · exact List.mem_cons.mpr (Or.inl h)
      · exact List.mem_cons.mpr (Or.inr (ih h))

/-- What `takeWhile` keeps comes before the first element it rejects. -/
theorem mem_of_mem_takeWhile_append {α : Type} (f : α → Bool) (a b : List α) (e x : α)
    (he : f e = false) (h : x ∈ (a ++ e :: b).takeWhile f) : x ∈ a := by
  induction a with
  | nil => simp [List.takeWhile_cons, he] at h
  | cons y a ih =>
    simp only [List.cons_append, List.takeWhile_cons] at h
    cases hy : f y
    · simp [hy] at h
    · simp only [hy, if_true] at h
      rcases List.mem_cons.mp h with h | h
      · exact List.mem_cons.mpr (Or.inl h)
      · exact List.mem_cons.mpr (Or.inr (ih h))

/-- A list of elements that `takeWhile` keeps is kept whole. -/
theorem takeWhile_all {α : Type} (f : α → Bool) (a : List α) (h : ∀ x ∈ a, f x = true) :
    a.takeWhile f = a := by
  induction a with
  | nil => rfl
  | cons y a ih =>
    simp only [List.takeWhile_cons, h y (List.mem_cons_self _ _), if_true]
    rw [ih (fun x hx => h x (List.mem_cons_of_mem _ hx))]

/-- The call of `start` needs the worker to have no live thread. -/
theorem step_start_idle (w v : World) (l : Label) (a : Ptr) (h : step w l = some v)
    (hs : l.isStartOf a = true) : (w.heap a).pc = PC.idle := by
  cases l <;> simp [Label.isStartOf] at hs
  subst hs
  simp only [step] at h
  split at h
  · rename_i hg
    exact hg.2.1
  · cases h

/-- One step of the process after `start` was called on `A` with `B` in its
waiting list: either `B` is still in the waiting list of `A` and the start
hook of `A` has not been called since, or the start hook of `B` was called
before any call of the start hook of `A` since. `L0` is the log at the call of
`start`. -/
theorem start_order_step (A B : Ptr) (L0 : List Event) (u v : World) (l : Label)
    (hr : Reachable u) (hl : step u l = some v)
    (hk : (B ∈ (u.heap A).obj.waitingList ∧ ∃ new, u.log = L0 ++ new ∧
        Event.onStart A ∉ new) ∨
      (∃ new, u.log = L0 ++ new ∧
        Event.onStart B ∈ L0 ++ new.takeWhile (fun e => decide (e ≠ Event.onStart A)))) :
    (B ∈ (v.heap A).obj.waitingList ∧ ∃ new, v.log = L0 ++ new ∧
        Event.onStart A ∉ new) ∨
      (∃ new, v.log = L0 ++ new ∧
        Event.onStart B ∈ L0 ++ new.takeWhile (fun e => decide (e ≠ Event.onStart A))) := by
  obtain ⟨es, hes, hstart⟩ := step_log u v l hl
  rcases hk with ⟨hB, new, hlog, hnew⟩ | ⟨new, hlog, hmem⟩
  · -- the thread of `A` is waiting
    have hwait : (u.heap A).pc.waiting = true :=
      (reachable_waiting u hr A).1 (List.ne_nil_of_mem hB)
    have hnotidle : (u.heap A).pc ≠ PC.idle := by
      intro hi
      rw [hi] at hwait
      simp [PC.waiting] at hwait
    have hA : Event.onStart A ∉ es := by
      intro hm
      have := (hstart A hm).1
      rw [this] at hwait
      simp [PC.waiting] at hwait
    have hnew2 : Event.onStart A ∉ new ++ es := by
      intro hm
      rcases List.mem_append.mp hm with hm | hm
      · exact hnew hm
      · exact hA hm
    have hlog2 : v.log = L0 ++ (new ++ es) := by rw [hes, hlog, List.append_assoc]
    have hc : l.isConstructOf A = false :=
      step_isConstructOf u v l A hl ((reachable_front_empty u hr A).1 hnotidle)
    have hs : l.isStartOf A = false := by
      by_contra hst
      exact hnotidle (step_start_idle u v l A hl (by simpa using hst))
    rcases step_waitingList u v l A hl hc hs with hw | ⟨q, now, rest, _, hpc, hrem⟩
    · exact Or.inl ⟨by rw [hw]; exact hB, new ++ es, hlog2, hnew2⟩
    · rcases removeFromWaitingList_some _ _ q hrem with ⟨h1, _⟩ | h2
      · rw [h1] at hB
        simp at hB
      · by_cases hBv : B ∈ (v.heap A).obj.waitingList
        · exact Or.inl ⟨hBv, new ++ es, hlog2, hnew2⟩
        · have hq : B = q := by
            rw [h2] at hB
            rcases List.mem_cons.mp hB with h | h
            · exact h
            · exact absurd h hBv
          subst hq
          have hstarted : Event.onStart B ∈ u.log := (reachable_waiting u hr B).2 ⟨_, hpc⟩
          refine Or.inr ⟨new ++ es, hlog2, ?_⟩
          rw [takeWhile_all _ (new ++ es)]
          · rw [← List.append_assoc, ← hlog]
            exact List.mem_append_left _ hstarted
          · intro x hx
            simp only [decide_eq_true_eq]
            intro hxe
            rw [hxe] at hx
            exact hnew2 hx
  · refine Or.inr ⟨new ++ es, by rw [hes, hlog, List.append_assoc], ?_⟩
    rcases List.mem_append.mp hmem with h | h
    · exact List.mem_append_left _ h
    · exact List.mem_append_right _ (mem_takeWhile_append _ _ _ _ h)

/-- The same over a schedule. -/
theorem start_order_exec (A B : Ptr) (L0 : List Event) (s : List Label) :
    ∀ u v, Reachable u → exec u s = some v →
      ((B ∈ (u.heap A).obj.waitingList ∧ ∃ new, u.log = L0 ++ new ∧
          Event.onStart A ∉ new) ∨
        (∃ new, u.log = L0 ++ new ∧
          Event.onStart B ∈ L0 ++ new.takeWhile (fun e => decide (e ≠ Event.onStart A)))) →
      ((B ∈ (v.heap A).obj.waitingList ∧ ∃ new, v.log = L0 ++ new ∧
          Event.onStart A ∉ new) ∨
        (∃ new, v.log = L0 ++ new ∧
          Event.onStart B ∈ L0 ++ new.takeWhile (fun e => decide (e ≠ Event.onStart A)))) := by
  induction s with
  | nil =>
    intro u v _ h hk
    simp only [exec] at h
    cases h
    exact hk
  | cons l rest ih =>
    intro u v hr h hk
    simp only [exec] at h
    cases hl : step u l with
    | none => simp [hl] at h
    | some u1 =>
      simp only [hl] at h
      exact ih u1 v (hr.step hl) h (start_order_step A B L0 u u1 l hr hl hk)

/-- A schedule of one step. -/
theorem exec_single (w v : World) (l : Label) (h : exec w [l] = some v) : step w l = some v := by
  simp only [exec] at h
  cases hl : step w l with
  | none => simp [hl] at h
  | some w1 =>
    simp only [hl] at h
    exact h

/-- C6, as stated, fails: worker 2 is started with the array of worker 1 while
worker 1 is not running; worker 1 calls its start hook and removes itself from
the waiting list of worker 2 in its registry scan; worker 2 then calls its
start hook, while worker 1 has not yet entered `run()`: its running flag is
still false and has never been set. -/
theorem C6_start_hook_before_awaited_is_running :
    (exec World.init (startBeforeRunning.take 2)).map
      (fun w => (w.heap 1).obj.isRunning) = some false ∧
    (exec World.init startBeforeRunning).map
      (fun w => (w.log, (w.heap 1).obj.isRunning, (w.heap 1).pc)) =
      some ([Event.onStart 1, Event.onStart 2], false, PC.scan []) ∧
    (exec World.init startBeforeRunning).map
      (fun w => decide (Event.running 1 ∈ w.log)) = some false := by
  decide

/-- C6, amended: when `A.start({B})` is called while B is not running, B is
put into the waiting list of A, and in every interleaving the start hook of A
is not called before the start hook of B has been called and has returned
(B removes itself from the waiting list of A in the registry scan that
follows its start hook; its running flag is set only later, in `run()`). -/
theorem C6_start_hook_after_start_hook_of_awaited (w w1 : World) (hr : Reachable w)
    (A B : Ptr) (hB : (w.heap B).obj.isRunning = false)
    (hstart : step w (Label.start A [B]) = some w1) :
    (w1.heap A).obj.waitingList = [B] ∧
    ∀ s v, exec w1 s = some v →
      ∀ pre post, v.log = w1.log ++ pre ++ Event.onStart A :: post →
        Event.onStart B ∈ w1.log ++ pre := by
  have hidle : (w.heap A).pc = PC.idle := step_start_idle w w1 _ A hstart (by simp [Label.isStartOf])
  have hwl0 : (w.heap A).obj.waitingList = [] := by
    by_contra hne
    have := (reachable_waiting w hr A).1 hne
    rw [hidle] at this
    simp [PC.waiting] at this
  have hwl : (w1.heap A).obj.waitingList = [B] := by
    simp only [step] at hstart
    split at hstart
    · cases hstart
      simp only [World.set_heap_self]
      rw [start_waitingList _ _ _ hwl0]
      simp only [FThread.isRunning] at hB
      simp [hB]
    · cases hstart
  refine ⟨hwl, ?_⟩
  intro s v hs pre post hlog
  have hk := start_order_exec A B w1.log s w1 v (hr.step hstart) hs
    (Or.inl ⟨by rw [hwl]; simp, [], by simp, by simp⟩)
  rcases hk with ⟨_, new, hnew, hA⟩ | ⟨new, hnew, hmem⟩
  · rw [hnew, List.append_assoc] at hlog
    have := List.append_cancel_left hlog
    rw [this] at hA
    simp at hA
  · rw [hnew, List.append_assoc] at hlog
    have hn := List.append_cancel_left hlog
    rw [hn] at hmem
    rcases List.mem_append.mp hmem with h | h
    · exact List.mem_append_left _ h
    · exact List.mem_append_right _
        (mem_of_mem_takeWhile_append _ pre post (Event.onStart A) _ (by simp) h)

/-- Witness of the amended C6 on `startBeforeRunning`: the start hook of
worker 1 is called before the start hook of worker 2. -/
theorem C6_start_hook_after_start_hook_of_awaited_witness :
    ((runWorld (startBeforeRunning.take 3)).heap 2).obj.waitingList = [1] ∧
    Event.onStart 1 ∈ (runWorld (startBeforeRunning.take 3)).log ++ [Event.onStart 1] := by
  have h := C6_start_hook_after_start_hook_of_awaited
    (runWorld (startBeforeRunning.take 2)) (runWorld (startBeforeRunning.take 3))
    (reachable_runWorld _ (by decide)) 2 1 (by decide)
    (exec_single _ _ _
      (exec_runWorld_append (startBeforeRunning.take 2) [Label.start 2 [1]] (by decide)))
  refine ⟨h.1, ?_⟩
  exact h.2 (startBeforeRunning.drop 3) (runWorld startBeforeRunning)
    (exec_runWorld_append (startBeforeRunning.take 3) (startBeforeRunning.drop 3) (by decide))
    [Event.onStart 1] [] (by decide)

/-- C4 fails on the code when `stop()` is called before the spawned thread has
entered `run()`: after `start` and `stop` the flags read running = false and
stopping = true, but the thread, once its waiting list is empty, calls the
start hook, sets running = true in `run()` (FThread.cpp line 140) without
looking at stopping, calls the tick hook and starts a further iteration: the
worker runs although it was stopped. -/
theorem C4_stop_before_run_is_lost :
    (exec World.init (stopBeforeRun.take 3)).map
      (fun w => ((w.heap 1).pc, (w.heap 1).obj.isRunning, (w.heap 1).obj.isStopping)) =
      some (PC.waitCheck, false, true) ∧
    (exec World.init stopBeforeRun).map
      (fun w => (w.log, (w.heap 1).pc, (w.heap 1).obj.isRunning, (w.heap 1).obj.isStopping)) =
      some ([Event.onStart 1, Event.running 1, Event.onTick 1 6 0], PC.tickBegin, true,
        true) := by
  decide

/-- A step of the thread of `p`, past the entry of `run()` and outside a tick
iteration, does not enter a tick iteration when running is false. -/
theorem threadStep_no_new_tick (w v : World) (p : Ptr) (now : Nat)
    (h : threadStep w p now = some v) (hr : (w.heap p).obj.running = false)
    (h1 : (w.heap p).pc.beforeRun = false) (h2 : (w.heap p).pc.tickBody = false) :
    (v.heap p).pc.tickBody = false := by
  simp only [threadStep, preStart, run, processTaskQueue] at h
  split at h
  all_goals (try split at h)
  all_goals (try split at h)
  all_goals cases h
  all_goals (try (simp_all [DrainCaller.next, PC.tickBody, PC.beforeRun]; done))
  all_goals (try (rename_i c _ _; cases c <;>
    simp_all [DrainCaller.next, PC.tickBody, PC.beforeRun]))
  all_goals (try (rename_i c _ _ _; cases c <;>
    simp_all [DrainCaller.next, PC.tickBody, PC.beforeRun]))

/-- After `stop()` was called while the thread of `p` was inside the loop of
`run()`: running stays false, and the tick hook is called at most once more
(the call of the iteration in flight), and not at all when the call of that
iteration was already made; `i0` are the tick indices and `b0` says whether
the thread was before the call of the hook when `stop()` was called. -/
theorem stop_inside_loop_aux (p : Ptr) (i0 : List Nat) (b0 : Bool) (s : List Label) :
    ∀ u v,
      (u.heap p).obj.running = false → (u.heap p).pc.beforeRun = false →
      (((u.heap p).pc.tickBody = true ∧ tickIndices p u.log = i0 ∧ b0 = true) ∨
        ((u.heap p).pc.tickBody = false ∧ ∃ extra, tickIndices p u.log = i0 ++ extra ∧
          extra.length ≤ 1 ∧ (b0 = false → extra = []))) →
      (∀ l ∈ s, l.isStartOf p = false ∧ l.isConstructOf p = false) →
      exec u s = some v →
      (v.heap p).obj.running = false ∧
      ∃ extra, tickIndices p v.log = i0 ++ extra ∧ extra.length ≤ 1 ∧
        (b0 = false → extra = []) := by
  induction s with
  | nil =>
    intro u v hr _ hph _ h
    simp only [exec] at h
    cases h
    refine ⟨hr, ?_⟩
    rcases hph with ⟨_, hi, hb⟩ | ⟨_, hex⟩
    · exact ⟨[], by simp [hi], by simp, fun hf => by simp [hb] at hf⟩
    · exact hex
  | cons l rest ih =>
    intro u v hr hbr hph hs h
    simp only [exec] at h
    cases hl : step u l with
    | none => simp [hl] at h
    | some u1 =>
      simp only [hl] at h
      obtain ⟨hsl, hcl⟩ := hs l (List.mem_cons_self _ _)
      have hrest : ∀ l ∈ rest, l.isStartOf p = false ∧ l.isConstructOf p = false :=
        fun l hm => hs l (List.mem_cons_of_mem _ hm)
      by_cases hth : l.isThreadOf p = true
      · cases l <;> simp [Label.isThreadOf] at hth
        rename_i q now
        subst hth
        obtain ⟨a1, a2⟩ := threadStep_after_run u u1 q now hl hbr
        have hr1 : (u1.heap q).obj.running = false := by
          by_contra hc
          rw [a2 (by simpa using hc)] at hr
          cases hr
        refine ih u1 v hr1 a1 ?_ hrest h
        rcases hph with ⟨hb, hi, hb0⟩ | ⟨hb, extra, hi, hlen, hx⟩
        · by_cases hpc : ∃ r, (u.heap q).pc = PC.tickHook r
          · obtain ⟨r, hpcr⟩ := hpc
            obtain ⟨_, _, t3, t4⟩ := threadStep_tick u u1 q now r hl hpcr
            refine Or.inr ⟨?_, [(u.heap q).obj.tickCount], by rw [t3, hi], by simp,
              fun hf => by simp [hb0] at hf⟩
            rw [t4]
            cases r <;> simp [PC.tickBody]
          · have hn : ∀ r, (u.heap q).pc ≠ PC.tickHook r := fun r hr => hpc ⟨r, hr⟩
            obtain ⟨_, n2⟩ := threadStep_no_tick u u1 q now hl hn
            exact Or.inl ⟨threadStep_tickBody u u1 q now hl hb hn, by rw [n2, hi], hb0⟩
        · have hn : ∀ r, (u.heap q).pc ≠ PC.tickHook r := by
            intro r hpcr
            rw [hpcr] at hb
            simp [PC.tickBody] at hb
          obtain ⟨_, n2⟩ := threadStep_no_tick u u1 q now hl hn
          exact Or.inr ⟨threadStep_no_new_tick u u1 q now hl hr hbr hb, extra,
            by rw [n2, hi], hlen, hx⟩
      · have ht2 : l.isThreadOf p = false := by simpa using hth
        obtain ⟨_, _, _, _, h5, h6, _, _, h9, _⟩ := step_frame u u1 l p hl ht2 hcl
        have hpc := (h9 hsl).1
        have hr1 : (u1.heap p).obj.running = false := by
          by_contra hc
          rw [h5 (by simpa using hc)] at hr
          cases hr
        refine ih u1 v hr1 (by rw [hpc]; exact hbr) ?_ hrest h
        rw [hpc, h6]
        exact hph

/-- The part of C4 the code fulfils: when `stop()` is called while the thread
is inside the loop of `run()`, running is false after the call and stays false
as long as the worker is not started again, the loop condition then leads to
the stop hook, and the tick hook is called at most once more: by the iteration
in flight, if its call was not yet made. -/
theorem stop_inside_loop_exits (w u : World) (p : Ptr)
    (hpc : (w.heap p).pc.inLoop = true) (hstop : step w (Label.stop p) = some u) :
    (u.heap p).obj.isRunning = false ∧
    (∀ now, (u.heap p).pc = PC.loopCheckTick ∨ (u.heap p).pc = PC.loopCheckQueueOnly →
      step u (Label.thread p now) = some (u.setPC p PC.stopHook)) ∧
    (∀ s v, (∀ l ∈ s, l.isStartOf p = false ∧ l.isConstructOf p = false) →
      exec u s = some v →
      (v.heap p).obj.isRunning = false ∧
      ∃ extra, tickIndices p v.log = tickIndices p w.log ++ extra ∧ extra.length ≤ 1 ∧
        ((w.heap p).pc.tickBody = false → extra = [])) := by
  have hu : (u.heap p).obj.running = false ∧ (u.heap p).pc = (w.heap p).pc ∧ u.log = w.log := by
    simp only [step] at hstop
    split at hstop
    · cases hstop
      simp [FThread.stop]
    · cases hstop
  obtain ⟨hr, hpcu, hlog⟩ := hu
  have hbr : (u.heap p).pc.beforeRun = false := by
    rw [hpcu]
    revert hpc
    cases (w.heap p).pc <;> simp [PC.inLoop, PC.beforeRun]
  refine ⟨hr, ?_, ?_⟩
  · intro now hc
    rcases hc with hc | hc <;> simp [step, threadStep, preStart, run, processTaskQueue, hc, hr]
  · intro s v hs h
    refine stop_inside_loop_aux p (tickIndices p w.log) (w.heap p).pc.tickBody s u v hr hbr ?_ hs h
    rw [hpcu, hlog]
    cases hb : (w.heap p).pc.tickBody
    · exact Or.inr ⟨rfl, [], by simp, by simp, fun _ => rfl⟩
    · exact Or.inl ⟨rfl, rfl, rfl⟩

/-! ### The registry scan and `removeFromWaitingList` -/

/-- The loop of `removeFromWaitingList` never exits when the list is not empty
and its first element is not the thread: whatever the fuel, it is still
running. -/
theorem removeFromWaitingListLoop_never_exits (thread x : Ptr) (rest : List Ptr)
    (h : x ≠ thread) (fuel : Nat) :
    removeFromWaitingListLoop thread (x :: rest) 0 fuel = none := by
  induction fuel with
  | zero => rfl
  | succ n ih =>
    rw [removeFromWaitingListLoop]
    simp only [List.length_cons, Nat.zero_lt_succ, ↓reduceDIte, List.get_eq_getElem,
      List.getElem_cons_zero, h, ↓reduceIte]
    exact ih

/-- The loop of `removeFromWaitingList` exits, with some fuel, exactly when the
list is empty or its first element is the thread. -/
theorem removeFromWaitingListLoop_exits_iff (thread : Ptr) (waiting : List Ptr) :
    (∃ fuel l, removeFromWaitingListLoop thread waiting 0 fuel = some l) ↔
      (waiting = [] ∨ waiting.head? = some thread) := by
  constructor
  · rintro ⟨fuel, l, h⟩
    cases waiting with
    | nil => exact Or.inl rfl
    | cons x rest =>
      right
      by_cases hx : x = thread
      · simp [hx]
      · rw [removeFromWaitingListLoop_never_exits thread x rest hx fuel] at h
        cases h
  · intro h
    refine ⟨1, ?_⟩
    rw [removeFromWaitingListLoop_eq]
    rcases h with h | h
    · subst h
      exact ⟨[], rfl⟩
    · cases waiting with
      | nil => exact ⟨[], rfl⟩
      | cons x rest =>
        simp only [List.head?_cons, Option.some.injEq] at h
        exact ⟨rest, by simp [removeFromWaitingList, h]⟩

/-- A thread whose registry scan is at a worker on whose waiting list
`removeFromWaitingList` never returns stays there: as long as only this thread
moves (it holds the mutex of that waiting list and the mutex of the registry),
the world does not change. -/
theorem scan_never_completes (w : World) (p q : Ptr) (rest : List Ptr)
    (hpc : (w.heap p).pc = PC.scan (q :: rest))
    (hrem : removeFromWaitingList (w.heap q).obj.waitingList p = none) (now : Nat) (n : Nat) :
    exec w (List.replicate n (Label.thread p now)) = some w := by
  have hstep : step w (Label.thread p now) = some w := by
    simp only [step, threadStep, preStart, run, processTaskQueue, hpc, hrem]
  induction n with
  | zero => rfl
  | succ n ih =>
    rw [List.replicate_succ]
    simp only [exec, hstep]
    exact ih

/-- The part of C11 the code fulfils: at an entry of the registry scan whose
waiting list is empty or starts with the scanning thread, the step of the scan
returns, removes that first occurrence (and nothing else: the rest of the
list, further occurrences of the thread among it, keeps its order) and goes on
to the next entry. -/
theorem scan_entry_removes_head (w : World) (p q : Ptr) (rest l : List Ptr) (now : Nat)
    (hpc : (w.heap p).pc = PC.scan (q :: rest))
    (hwl : (w.heap q).obj.waitingList = [] ∧ l = [] ∨ (w.heap q).obj.waitingList = p :: l) :
    ∃ v, step w (Label.thread p now) = some v ∧ (v.heap q).obj.waitingList = l ∧
      (v.heap p).pc = PC.scan rest ∧ v.log = w.log ∧ v.INSTANCES = w.INSTANCES := by
  have hrem : removeFromWaitingList (w.heap q).obj.waitingList p = some l := by
    rcases hwl with ⟨h1, h2⟩ | h
    · rw [h1, h2]
      rfl
    · rw [h]
      simp [removeFromWaitingList]
  simp only [step, threadStep, preStart, run, processTaskQueue, hpc, hrem]
  refine ⟨_, rfl, ?_, by simp, rfl, rfl⟩
  by_cases hq : q = p
  · subst hq
    simp
  · simp [hq]

/-- C11 fails on the code. Worker 1 waits for the workers 2 and 3 (waiting
list 2, 3); worker 3 calls its start hook and starts its registry scan at
worker 1: `removeFromWaitingList(3)` finds 2 at the head of the list and never
advances its iterator, so it never returns: however many steps the thread of
worker 3 takes, the scan stays at worker 1 and the waiting list of worker 1
still contains 3. And with worker 2 twice in the waiting list of worker 1
(waiting list 2, 2) the scan of worker 2 completes but has removed the first
occurrence only: the waiting list of worker 1 is 2 and still contains 2. -/
theorem C11_scan_leaves_thread_in_waitingList :
    ((exec World.init scanNotAtHead).map (fun w =>
        ((w.heap 3).pc, (w.heap 1).obj.waitingList, w.INSTANCES, w.log)) =
      some (PC.scan [1, 2, 3], [2, 3], [1, 2, 3], [Event.onStart 3])) ∧
    (∀ now n, exec (runWorld scanNotAtHead) (List.replicate n (Label.thread 3 now)) =
      some (runWorld scanNotAtHead)) ∧
    (∀ fuel, removeFromWaitingListLoop 3 [2, 3] 0 fuel = none) ∧
    3 ∈ ((runWorld scanNotAtHead).heap 1).obj.waitingList ∧
    ((exec World.init scanDuplicate).map (fun w =>
        ((w.heap 2).pc, (w.heap 1).obj.waitingList, w.INSTANCES, w.log)) =
      some (PC.runInit, [2], [1, 2], [Event.onStart 2])) ∧
    removeFromWaitingListLoop 2 [2, 2] 0 1 = some [2] ∧
    2 ∈ ((runWorld scanDuplicate).heap 1).obj.waitingList := by
  refine ⟨by decide, ?_, ?_, by decide, by decide, by decide, by decide⟩
  · intro now n
    exact scan_never_completes (runWorld scanNotAtHead) 3 1 [2, 3] (by decide) (by decide) now n
  · intro fuel
    exact removeFromWaitingListLoop_never_exits 3 2 [3] (by decide) fuel

/-- C12 fails on the code. With a waiting list that is not empty and whose
first element is not the thread, the loop of `removeFromWaitingList` never
exits (its iterator is never advanced): it is still running whatever the fuel,
here for the waiting list 2 and thread 3 and in general; it exits exactly when
the list is empty or starts with the thread. In the process, worker 1 waits
for worker 2 and a third worker 3 starts: its registry scan never gets past
worker 1, so worker 3 never enters `run()`. -/
theorem C12_removeFromWaitingList_never_returns :
    (∀ fuel, removeFromWaitingListLoop 3 [2] 0 fuel = none) ∧
    (∀ thread x rest fuel, x ≠ thread →
      removeFromWaitingListLoop thread (x :: rest) 0 fuel = none) ∧
    (∀ thread waiting, (∃ fuel l, removeFromWaitingListLoop thread waiting 0 fuel = some l) ↔
      (waiting = [] ∨ waiting.head? = some thread)) ∧
    ((exec World.init scanAbsent).map (fun w =>
        ((w.heap 3).pc, (w.heap 1).obj.waitingList, w.INSTANCES, w.log)) =
      some (PC.scan [1, 2, 3], [2], [1, 2, 3], [Event.onStart 3])) ∧
    (∀ now n, exec (runWorld scanAbsent) (List.replicate n (Label.thread 3 now)) =
      some (runWorld scanAbsent)) := by
  refine ⟨?_, ?_, removeFromWaitingListLoop_exits_iff, by decide, ?_⟩
  · intro fuel
    exact removeFromWaitingListLoop_never_exits 3 2 [] (by decide) fuel
  · intro thread x rest fuel h
    exact removeFromWaitingListLoop_never_exits thread x rest h fuel
  · intro now n
    exact scan_never_completes (runWorld scanAbsent) 3 1 [2, 3] (by decide) (by decide) now n

/-! ### `stop()` on a worker that has stopped -/

/-- A call of `stop`, `addTask` or `setTicksPerSecond`, or any step on another
worker, does not clear the stopping flag of worker `p`. -/
theorem step_keeps_stopping (w v : World) (l : Label) (p : Ptr) (h : step w l = some v)
    (ht : l.isThreadOf p = false) (hc : l.isConstructOf p = false)
    (hs : l.isStartOf p = false) (hst : (w.heap p).obj.stopping = true) :
    (v.heap p).obj.stopping = true := by
  by_cases hne : l.target = p
  · cases l with
    | thread q now =>
      simp only [Label.target] at hne
      simp [Label.isThreadOf, hne] at ht
    | construct q name tps mode threshold selfDestruct =>
      simp only [Label.target] at hne
      simp [Label.isConstructOf, hne] at hc
    | start q waitFor =>
      simp only [Label.target] at hne
      simp [Label.isStartOf, hne] at hs
    | stop q =>
      simp only [Label.target] at hne
      subst hne
      simp only [step] at h
      split at h <;> cases h
      simp [FThread.stop]
    | addTask q task =>
      simp only [Label.target] at hne
      subst hne
      simp only [step] at h
      split at h <;> cases h
      simp only [World.setObj_heap_self, FThread.addTask]
      split_ifs <;> exact hst
    | setTicksPerSecond q newTPS =>
      simp only [Label.target] at hne
      subst hne
      simp only [step] at h
      split at h <;> cases h
      simp only [World.setObj_heap_self, FThread.setTicksPerSecond]
      split_ifs <;> exact hst
  · obtain ⟨_, _, h3, _⟩ := step_other w v l p h hne
    rw [h3]
    exact hst

/-- After `stop()` on a worker without a live thread the stopping flag is
never reset: it stays true, and the worker stays without a thread, over every
schedule in which the worker is not started again. -/
theorem stopping_never_reset_without_thread (p : Ptr) (s : List Label) :
    ∀ u v, (u.heap p).pc = PC.idle → (u.heap p).obj.stopping = true →
      (∀ l ∈ s, l.isStartOf p = false ∧ l.isConstructOf p = false) →
      exec u s = some v →
      (v.heap p).pc = PC.idle ∧ (v.heap p).obj.isStopping = true := by
  induction s with
  | nil =>
    intro u v h1 h2 _ h
    simp only [exec] at h
    cases h
    exact ⟨h1, h2⟩
  | cons l rest ih =>
    intro u v h1 h2 hs h
    simp only [exec] at h
    cases hl : step u l with
    | none => simp [hl] at h
    | some u1 =>
      simp only [hl] at h
      obtain ⟨hsl, hcl⟩ := hs l (List.mem_cons_self _ _)
      have hth : l.isThreadOf p = false := by
        by_contra hc
        cases l <;> simp [Label.isThreadOf] at hc
        subst hc
        simp [step, threadStep, h1] at hl
      obtain ⟨_, _, _, _, _, _, _, _, h9, _⟩ := step_frame u u1 l p hl hth hcl
      exact ih u1 v (by rw [(h9 hsl).1]; exact h1)
        (step_keeps_stopping u u1 l p hl hth hcl hsl h2)
        (fun l hm => hs l (List.mem_cons_of_mem _ hm)) h

/-- C5 fails on the code: after the whole life of worker 1 (constructed,
started, two ticks, stopped, stop hook returned, flags reset by the thread on
its way out) the thread is gone and started, running and stopping are all
false; a further `stop()` is not a no-op: it makes `isStopping()` return true
on a worker that is not stopping; no thread is left to reset the flag, so
whatever is called afterwards, `isStopping()` stays true until the worker
is started again. -/
theorem C5_stop_on_stopped_changes_isStopping :
    (exec World.init wholeLife).map (fun w => ((w.heap 1).pc, (w.heap 1).obj.hasStarted,
      (w.heap 1).obj.isRunning, (w.heap 1).obj.isStopping)) =
      some (PC.idle, false, false, false) ∧
    (exec World.init (wholeLife ++ [Label.stop 1])).map (fun w => ((w.heap 1).pc,
      (w.heap 1).obj.hasStarted, (w.heap 1).obj.isRunning, (w.heap 1).obj.isStopping)) =
      some (PC.idle, false, false, true) ∧
    (∀ s v, (∀ l ∈ s, l.isStartOf 1 = false ∧ l.isConstructOf 1 = false) →
      exec (runWorld (wholeLife ++ [Label.stop 1])) s = some v →
      (v.heap 1).pc = PC.idle ∧ (v.heap 1).obj.isStopping = true) ∧
    ¬ (∀ o : FThread, o.started = false → o.running = false → o.stopping = false →
      o.stop = o) := by
  refine ⟨by decide, by decide, ?_, ?_⟩
  · intro s v hs h
    exact stopping_never_reset_without_thread 1 s (runWorld (wholeLife ++ [Label.stop 1])) v
      (by decide) (by decide) hs h
  · intro h
    have := h (FThread.construct "W" 0 TaskQueueMode.QUEUE_DISABLED 250 false) rfl rfl rfl
    have h2 := congrArg FThread.stopping this
    simp [FThread.stop, FThread.construct] at h2

/-! ### The tick iteration ends, and the counter wraps -/

/-- The trace of a schedule of one step. -/
theorem execTrace_single (w w1 : World) (l : Label) (h : step w l = some w1) :
    execTrace w [l] = some [w1] := by
  simp [execTrace, h]

/-- The trace of a schedule that is continued from the world it leads to. -/
theorem execTrace_append (s t : List Label) (u : World) (m2 : List World) :
    ∀ w m1, execTrace w s = some (m1 ++ [u]) → execTrace u t = some m2 →
      execTrace w (s ++ t) = some (m1 ++ [u] ++ m2) := by
  induction s with
  | nil =>
    intro w m1 h _
    simp [execTrace] at h
  | cons l rest ih =>
    intro w m1 h ht
    obtain ⟨w1, hl, hcase⟩ := execTrace_cons_snoc w u l rest m1 h
    rcases hcase with ⟨hm, hu⟩ | ⟨mid1, hm, h1⟩
    · subst hm
      subst hu
      have hrest : rest = [] := execTrace_cons_single w u l rest h
      subst hrest
      rw [List.cons_append, List.nil_append, execTrace_cons_of_step w u l t hl, ht]
      rfl
    · subst hm
      rw [List.cons_append, execTrace_cons_of_step w w1 l _ hl, ih w1 mid1 h1 ht]
      rfl

/-- The call of the tick hook is followed by the next check of the loop
condition: when only the thread of `p` moves, after one step (uncapped) or two
(rate-limited, the second is the sleep). -/
theorem tickHook_alone (w : World) (p : Ptr) (now : Nat) (r : Bool)
    (hpc : (w.heap p).pc = PC.tickHook r) :
    ∃ n mid v, n ≤ 2 ∧
      execTrace w (List.replicate n (Label.thread p now)) = some (mid ++ [v]) ∧
      (∀ u ∈ mid, (u.heap p).pc ≠ PC.loopCheckTick) ∧ (v.heap p).pc = PC.loopCheckTick := by
  cases r with
  | false =>
    obtain ⟨w1, hstep, hpc1⟩ : ∃ w1, step w (Label.thread p now) = some w1 ∧
        (w1.heap p).pc = PC.loopCheckTick := by
      simp only [step, threadStep, preStart, run, processTaskQueue, hpc]
      exact ⟨_, rfl, by simp⟩
    exact ⟨1, [], w1, by omega, execTrace_single w w1 _ hstep, by simp, hpc1⟩
  | true =>
    obtain ⟨w1, hstep, hpc1⟩ : ∃ w1, step w (Label.thread p now) = some w1 ∧
        (w1.heap p).pc = PC.sleepUntil := by
      simp only [step, threadStep, preStart, run, processTaskQueue, hpc]
      exact ⟨_, rfl, by simp⟩
    obtain ⟨w2, hstep2, hpc2⟩ : ∃ w2, step w1 (Label.thread p now) = some w2 ∧
        (w2.heap p).pc = PC.loopCheckTick := by
      simp only [step, threadStep, preStart, run, processTaskQueue, hpc1]
      exact ⟨_, rfl, by simp⟩
    refine ⟨2, [w1], w2, by omega, ?_, ?_, hpc2⟩
    · have h := execTrace_append [Label.thread p now] [Label.thread p now] w1 [w2] w []
        (execTrace_single w w1 _ hstep) (execTrace_single w1 w2 _ hstep2)
      exact h
    · intro u hu
      rw [List.mem_singleton.mp hu, hpc1]
      simp

/-- The drain inside a tick iteration ends and is followed by the call of the
tick hook and the next check of the loop condition, when only the thread of
`p` moves. -/
theorem drainSwap_alone (w : World) (p : Ptr) (now : Nat) (c : DrainCaller)
    (hc : c ≠ DrainCaller.queueOnly) (hpc : (w.heap p).pc = PC.drainSwap c) :
    ∃ n mid v, n ≤ (w.heap p).obj.backTaskQueue.length + 4 ∧
      execTrace w (List.replicate n (Label.thread p now)) = some (mid ++ [v]) ∧
      (∀ u ∈ mid, (u.heap p).pc ≠ PC.loopCheckTick) ∧ (v.heap p).pc = PC.loopCheckTick := by
  obtain ⟨w1, hstep, hpc1, hf1⟩ : ∃ w1, step w (Label.thread p now) = some w1 ∧
      (w1.heap p).pc = PC.drainPop c ∧
      (w1.heap p).obj.frontTaskQueue = (w.heap p).obj.backTaskQueue := by
    simp only [step, threadStep, preStart, run, processTaskQueue, hpc]
    exact ⟨_, rfl, by simp, by simp [FThread.swapTaskQueues]⟩
  obtain ⟨mid2, w2, ht2, hmid2, hpc2⟩ := drainPop_alone p c now
    (w.heap p).obj.backTaskQueue.length w1 hpc1 (by rw [hf1])
  obtain ⟨r, hr⟩ : ∃ r, c.next = PC.tickHook r := by
    cases c
    · exact absurd rfl hc
    · exact ⟨false, rfl⟩
    · exact ⟨true, rfl⟩
  rw [hr] at hpc2
  obtain ⟨n3, mid3, v, hn3, ht3, hmid3, hpc3⟩ := tickHook_alone w2 p now r hpc2
  have h12 := execTrace_append [Label.thread p now] _ w1 (mid2 ++ [w2]) w []
    (execTrace_single w w1 _ hstep) ht2
  have h123 := execTrace_append _ _ w2 (mid3 ++ [v]) w ([] ++ [w1] ++ mid2)
    (by rw [h12]; simp) ht3
  refine ⟨1 + ((w.heap p).obj.backTaskQueue.length + 1) + n3, [w1] ++ mid2 ++ [w2] ++ mid3, v,
    by omega, ?_, ?_, hpc3⟩
  · rw [List.replicate_add, List.replicate_add]
    simpa [List.replicate] using h123
  · intro u hu
    simp only [List.mem_append, List.mem_singleton] at hu
    rcases hu with ((hu | hu) | hu) | hu
    · rw [hu, hpc1]
      simp
    · rw [hmid2 u hu]
      simp
    · rw [hu, hpc2]
      simp
    · exact hmid3 u hu

/-- A tick iteration ends: when only the thread of `p` moves, it goes from the
start of the iteration to the next check of the loop condition, in at most
five steps plus one for each callable of the back buffer. -/
theorem iteration_alone (w : World) (p : Ptr) (now : Nat)
    (hpc : (w.heap p).pc = PC.tickBegin) :
    ∃ n mid v, n ≤ (w.heap p).obj.backTaskQueue.length + 5 ∧
      execTrace w (List.replicate n (Label.thread p now)) = some (mid ++ [v]) ∧
      (∀ u ∈ mid, (u.heap p).pc ≠ PC.loopCheckTick) ∧ (v.heap p).pc = PC.loopCheckTick := by
  obtain ⟨w1, hstep, hb1, hcase⟩ : ∃ w1, step w (Label.thread p now) = some w1 ∧
      (w1.heap p).obj.backTaskQueue = (w.heap p).obj.backTaskQueue ∧
      ((∃ r, (w1.heap p).pc = PC.tickHook r) ∨
        (∃ c, c ≠ DrainCaller.queueOnly ∧ (w1.heap p).pc = PC.drainSwap c)) := by
    simp only [step, threadStep, preStart, run, processTaskQueue, hpc]
    split_ifs
    · exact ⟨_, rfl, by simp, Or.inr ⟨DrainCaller.noSleep, by simp, by simp [*]⟩⟩
    · exact ⟨_, rfl, by simp, Or.inl ⟨false, by simp [*]⟩⟩
    · exact ⟨_, rfl, by simp, Or.inr ⟨DrainCaller.rateLimited, by simp, by simp [*]⟩⟩
    · exact ⟨_, rfl, by simp, Or.inl ⟨true, by simp [*]⟩⟩
  have hne : (w1.heap p).pc ≠ PC.loopCheckTick := by
    rcases hcase with ⟨r, hr⟩ | ⟨c, _, hc⟩
    · rw [hr]
      simp
    · rw [hc]
      simp
  obtain ⟨n, mid, v, hn, ht, hmid, hv⟩ : ∃ n mid v,
      n ≤ (w.heap p).obj.backTaskQueue.length + 4 ∧
      execTrace w1 (List.replicate n (Label.thread p now)) = some (mid ++ [v]) ∧
      (∀ u ∈ mid, (u.heap p).pc ≠ PC.loopCheckTick) ∧ (v.heap p).pc = PC.loopCheckTick := by
    rcases hcase with ⟨r, hr⟩ | ⟨c, hcq, hc⟩
    · obtain ⟨n, mid, v, hn, h⟩ := tickHook_alone w1 p now r hr
      exact ⟨n, mid, v, by omega, h⟩
    · obtain ⟨n, mid, v, hn, h⟩ := drainSwap_alone w1 p now c hcq hc
      exact ⟨n, mid, v, by rw [← hb1]; exact hn, h⟩
  have h := execTrace_append [Label.thread p now] _ w1 (mid ++ [v]) w []
    (execTrace_single w w1 _ hstep) ht
  refine ⟨1 + n, [w1] ++ mid, v, by omega, ?_, ?_, hv⟩
  · rw [List.replicate_add]
    simpa [List.replicate] using h
  · intro u hu
    simp only [List.mem_append, List.mem_singleton] at hu
    rcases hu with hu | hu
    · rw [hu]
      exact hne
    · exact hmid u hu

/-- One iteration of an uncapped worker without a task queue, when only its
thread moves: three steps from the loop condition back to it, one call of the
tick hook. -/
theorem uncapped_iteration (w : World) (p : Ptr) (now : Nat)
    (hpc : (w.heap p).pc = PC.loopCheckTick) (hr : (w.heap p).obj.running = true)
    (hn : (w.heap p).obj.noSleepThread = true)
    (hm : (w.heap p).obj.taskQueueMode = TaskQueueMode.QUEUE_DISABLED) :
    ∃ v, exec w (List.replicate 3 (Label.thread p now)) = some v ∧
      (v.heap p).pc = PC.loopCheckTick ∧ (v.heap p).obj.running = true ∧
      (v.heap p).obj.noSleepThread = true ∧
      (v.heap p).obj.taskQueueMode = TaskQueueMode.QUEUE_DISABLED ∧
      (v.heap p).obj.tickCount = nextTick (w.heap p).obj.tickCount ∧
      tickIndices p v.log = tickIndices p w.log ++ [(w.heap p).obj.tickCount] := by
  obtain ⟨w1, h1, hpc1, hr1, hn1, hm1, hc1, hi1⟩ : ∃ w1,
      step w (Label.thread p now) = some w1 ∧ (w1.heap p).pc = PC.tickBegin ∧
      (w1.heap p).obj.running = true ∧ (w1.heap p).obj.noSleepThread = true ∧
      (w1.heap p).obj.taskQueueMode = TaskQueueMode.QUEUE_DISABLED ∧
      (w1.heap p).obj.tickCount = (w.heap p).obj.tickCount ∧
      tickIndices p w1.log = tickIndices p w.log := by
    simp only [step, threadStep, preStart, run, processTaskQueue, hpc, hr, if_true]
    exact ⟨_, rfl, by simp, by simp [hr], by simp [hn], by simp [hm], by simp, by simp⟩
  obtain ⟨w2, h2, hpc2, hr2, hn2, hm2, hc2, hi2⟩ : ∃ w2,
      step w1 (Label.thread p now) = some w2 ∧ (w2.heap p).pc = PC.tickHook false ∧
      (w2.heap p).obj.running = true ∧ (w2.heap p).obj.noSleepThread = true ∧
      (w2.heap p).obj.taskQueueMode = TaskQueueMode.QUEUE_DISABLED ∧
      (w2.heap p).obj.tickCount = (w1.heap p).obj.tickCount ∧
      tickIndices p w2.log = tickIndices p w1.log := by
    simp only [step, threadStep, preStart, run, processTaskQueue, hpc1, hn1, if_true]
    exact ⟨_, rfl, by simp [hm1], by simp [hr1], by simp [hn1], by simp [hm1], by simp,
      by simp⟩
  obtain ⟨w3, h3, hpc3, hr3, hn3, hm3, hc3, hi3⟩ : ∃ w3,
      step w2 (Label.thread p now) = some w3 ∧ (w3.heap p).pc = PC.loopCheckTick ∧
      (w3.heap p).obj.running = true ∧ (w3.heap p).obj.noSleepThread = true ∧
      (w3.heap p).obj.taskQueueMode = TaskQueueMode.QUEUE_DISABLED ∧
      (w3.heap p).obj.tickCount = nextTick (w2.heap p).obj.tickCount ∧
      tickIndices p w3.log = tickIndices p w2.log ++ [(w2.heap p).obj.tickCount] := by
    simp only [step, threadStep, preStart, run, processTaskQueue, hpc2]
    exact ⟨_, rfl, by simp, by simp [hr2], by simp [hn2], by simp [hm2], by simp,
      by simp [tickIndices_append, tickIndices]⟩
  refine ⟨w3, ?_, hpc3, hr3, hn3, hm3, by rw [hc3, hc2, hc1], by rw [hi3, hi2, hi1, hc2, hc1]⟩
  simp [List.replicate, exec, h1, h2, h3]

/-- The world after `n` tick iterations of the uncapped worker 1: the thread
is at the loop condition, the counter is `n` modulo `ULONG_MAX + 1`, and the
tick hook was called `n` times, call `i + 1` with index `i` modulo
`ULONG_MAX + 1`. -/
theorem manyTicks_exec (n : Nat) :
    ∃ w, exec World.init (manyTicks n) = some w ∧ (w.heap 1).pc = PC.loopCheckTick ∧
      (w.heap 1).obj.running = true ∧ (w.heap 1).obj.noSleepThread = true ∧
      (w.heap 1).obj.taskQueueMode = TaskQueueMode.QUEUE_DISABLED ∧
      (w.heap 1).obj.tickCount = n % (ULONG_MAX + 1) ∧
      tickIndices 1 w.log = (List.range n).map (fun i => i % (ULONG_MAX + 1)) := by
  induction n with
  | zero =>
    have h0 : (exec World.init (manyTicks 0)).isSome = true := by decide
    obtain ⟨w, hw⟩ := Option.isSome_iff_exists.mp h0
    have hrw : runWorld (manyTicks 0) = w := by simp [runWorld, hw]
    refine ⟨w, hw, ?_, ?_, ?_, ?_, ?_, ?_⟩
    · rw [← hrw]; decide
    · rw [← hrw]; decide
    · rw [← hrw]; decide
    · rw [← hrw]; decide
    · rw [← hrw]; decide
    · rw [← hrw]; decide
  | succ n ih =>
    obtain ⟨w, hw, hpc, hr, hn, hm, hc, hi⟩ := ih
    obtain ⟨v, hv, hpc1, hr1, hn1, hm1, hc1, hi1⟩ := uncapped_iteration w 1 0 hpc hr hn hm
    have hs : manyTicks (n + 1) = manyTicks n ++ List.replicate 3 (Label.thread 1 0) := by
      simp only [manyTicks, Nat.mul_add, List.replicate_add, List.append_assoc]
    refine ⟨v, ?_, hpc1, hr1, hn1, hm1, ?_, ?_⟩
    · rw [hs, exec_append, hw]
      exact hv
    · rw [hc1, hc]
      simp only [nextTick]
      exact Nat.mod_add_mod n (ULONG_MAX + 1) 1
    · rw [hi1, hi, hc, List.range_succ, List.map_append]
      rfl

/-- The schedule of `n` tick iterations can be taken, and the world it leads
to: counter `n` modulo `ULONG_MAX + 1`, indices `0 .. n - 1` modulo
`ULONG_MAX + 1`. -/
theorem manyTicks_runWorld (n : Nat) :
    (exec World.init (manyTicks n)).isSome = true ∧
    ((runWorld (manyTicks n)).heap 1).pc = PC.loopCheckTick ∧
    ((runWorld (manyTicks n)).heap 1).obj.isRunning = true ∧
    ((runWorld (manyTicks n)).heap 1).obj.getTickCount = n % (ULONG_MAX + 1) ∧
    tickIndices 1 (runWorld (manyTicks n)).log =
      (List.range n).map (fun i => i % (ULONG_MAX + 1)) := by
  obtain ⟨w, hw, hpc, hr, _, _, hc, hi⟩ := manyTicks_exec n
  have hrw : runWorld (manyTicks n) = w := by simp [runWorld, hw]
  rw [hrw]
  exact ⟨by simp [hw], hpc, hr, hc, hi⟩

/-- C3 fails on the code: the tick counter is an `unsigned long` and
`m_tickCount++` takes it from `ULONG_MAX` to 0. After `ULONG_MAX` tick
iterations of worker 1 (a reachable world) the counter is `ULONG_MAX`; the
next iteration calls the tick hook with index `ULONG_MAX` and leaves the
counter at 0: it did not increase by 1, it decreased; and the call after
that one, call number `ULONG_MAX + 2`, gets index 0 and not
`ULONG_MAX + 1`. -/
theorem C3_tick_counter_wraps :
    Reachable (runWorld (manyTicks ULONG_MAX)) ∧
    ((runWorld (manyTicks ULONG_MAX)).heap 1).pc = PC.loopCheckTick ∧
    ((runWorld (manyTicks ULONG_MAX)).heap 1).obj.isRunning = true ∧
    (tickIndices 1 (runWorld (manyTicks ULONG_MAX)).log).length = ULONG_MAX ∧
    ((runWorld (manyTicks ULONG_MAX)).heap 1).obj.getTickCount = ULONG_MAX ∧
    exec (runWorld (manyTicks ULONG_MAX)) (List.replicate 3 (Label.thread 1 0)) =
      some (runWorld (manyTicks (ULONG_MAX + 1))) ∧
    tickIndices 1 (runWorld (manyTicks (ULONG_MAX + 1))).log =
      tickIndices 1 (runWorld (manyTicks ULONG_MAX)).log ++ [ULONG_MAX] ∧
    ((runWorld (manyTicks (ULONG_MAX + 1))).heap 1).obj.getTickCount = 0 ∧
    ((runWorld (manyTicks (ULONG_MAX + 1))).heap 1).obj.getTickCount ≠
      ((runWorld (manyTicks ULONG_MAX)).heap 1).obj.getTickCount + 1 ∧
    (tickIndices 1 (runWorld (manyTicks (ULONG_MAX + 2))).log).length = ULONG_MAX + 2 ∧
    (tickIndices 1 (runWorld (manyTicks (ULONG_MAX + 2))).log)[ULONG_MAX + 1]? = some 0 := by
  obtain ⟨hs0, hpc0, hr0, hc0, hi0⟩ := manyTicks_runWorld ULONG_MAX
  obtain ⟨hs1, _, _, hc1, hi1⟩ := manyTicks_runWorld (ULONG_MAX + 1)
  obtain ⟨_, _, _, _, hi2⟩ := manyTicks_runWorld (ULONG_MAX + 2)
  have hm0 : ULONG_MAX % (ULONG_MAX + 1) = ULONG_MAX := Nat.mod_eq_of_lt (Nat.lt_succ_self _)
  have hm1 : (ULONG_MAX + 1) % (ULONG_MAX + 1) = 0 := Nat.mod_self _
  have hsplit : manyTicks (ULONG_MAX + 1) =
      manyTicks ULONG_MAX ++ List.replicate 3 (Label.thread 1 0) := by
    simp only [manyTicks, Nat.mul_add, List.replicate_add, List.append_assoc]
  refine ⟨reachable_runWorld _ hs0, hpc0, hr0, ?_, ?_, ?_, ?_, ?_, ?_, ?_, ?_⟩
  · rw [hi0, List.length_map, List.length_range]
  · rw [hc0, hm0]
  · rw [hsplit] at hs1 ⊢
    exact exec_runWorld_append _ _ hs1
  · rw [hi1, hi0, List.range_succ, List.map_append, List.map_singleton, hm0]
  · rw [hc1, hm1]
  · rw [hc1, hc0, hm1, hm0]
    exact (Nat.succ_ne_zero ULONG_MAX).symm
  · rw [hi2, List.length_map, List.length_range]
  · rw [hi2, List.getElem?_map, List.getElem?_range (Nat.lt_succ_self (ULONG_MAX + 1)),
      Option.map_some', hm1]

/-- C3, with the counter of the code (an `unsigned long`: the successor of
`ULONG_MAX` is 0). In the ticking loop (entered by `run()` whenever the mode
is not `QUEUE_ONLY`) every iteration, from its start to the next check of the
loop condition, calls the tick hook exactly once, with the value the tick
counter had as index, and takes the counter to its successor modulo
`ULONG_MAX + 1`, whatever other threads do meanwhile; the iteration does end
(in at most five steps plus one for each queued callable when only the thread
of the worker moves), so the hook is called; no other step of the process
(start, stop, addTask, the drain of the queue, setTicksPerSecond, any step of
another worker) changes the counter or calls the hook; so over any schedule
the hook of a worker gets the successive values of the counter, and from its
construction on the k-th call gets index (k - 1) modulo `ULONG_MAX + 1`, the
counter being the number of calls modulo `ULONG_MAX + 1`. -/
theorem C3_tick_hook_index_and_count (w : World) (p : Ptr) :
    ((w.heap p).pc = PC.runInit →
      (w.heap p).obj.taskQueueMode ≠ TaskQueueMode.QUEUE_ONLY →
      ∀ now, ∃ v, step w (Label.thread p now) = some v ∧ (v.heap p).pc = PC.loopCheckTick) ∧
    ((w.heap p).pc = PC.loopCheckTick → (w.heap p).obj.running = true →
      ∀ now, step w (Label.thread p now) = some (w.setPC p PC.tickBegin)) ∧
    (∀ s mid v, (w.heap p).pc = PC.tickBegin → (∀ l ∈ s, l.isConstructOf p = false) →
      execTrace w s = some (mid ++ [v]) →
      (∀ u ∈ mid, (u.heap p).pc ≠ PC.loopCheckTick) →
      (v.heap p).pc = PC.loopCheckTick →
      tickIndices p v.log = tickIndices p w.log ++ [(w.heap p).obj.tickCount] ∧
      (v.heap p).obj.getTickCount = ((w.heap p).obj.getTickCount + 1) % (ULONG_MAX + 1)) ∧
    ((w.heap p).pc = PC.tickBegin → ∀ now, ∃ n mid v,
      n ≤ (w.heap p).obj.backTaskQueue.length + 5 ∧
      execTrace w (List.replicate n (Label.thread p now)) = some (mid ++ [v]) ∧
      (∀ u ∈ mid, (u.heap p).pc ≠ PC.loopCheckTick) ∧
      (v.heap p).pc = PC.loopCheckTick ∧
      tickIndices p v.log = tickIndices p w.log ++ [(w.heap p).obj.tickCount] ∧
      (v.heap p).obj.getTickCount = ((w.heap p).obj.getTickCount + 1) % (ULONG_MAX + 1)) ∧
    (∀ l v, step w l = some v → l.isConstructOf p = false →
      ((∃ now r, l = Label.thread p now ∧ (w.heap p).pc = PC.tickHook r) ∧
        v.log = w.log ++ [Event.onTick p (v.heap p).obj.tickTime (w.heap p).obj.tickCount] ∧
        (v.heap p).obj.getTickCount = ((w.heap p).obj.getTickCount + 1) % (ULONG_MAX + 1)) ∨
      ((¬ ∃ now r, l = Label.thread p now ∧ (w.heap p).pc = PC.tickHook r) ∧
        (v.heap p).obj.getTickCount = (w.heap p).obj.getTickCount ∧
        tickIndices p v.log = tickIndices p w.log)) ∧
    (∀ s v, (∀ l ∈ s, l.isConstructOf p = false) → exec w s = some v →
      ∃ n, (v.heap p).obj.getTickCount = nextTick^[n] (w.heap p).obj.getTickCount ∧
        tickIndices p v.log = tickIndices p w.log ++
          (List.range n).map (fun i => nextTick^[i] (w.heap p).obj.getTickCount)) ∧
    ((w.heap p).obj.getTickCount = 0 → tickIndices p w.log = [] →
      ∀ s v, (∀ l ∈ s, l.isConstructOf p = false) → exec w s = some v →
        (v.heap p).obj.getTickCount = (tickIndices p v.log).length % (ULONG_MAX + 1) ∧
        ∀ k, k < (tickIndices p v.log).length →
          (tickIndices p v.log)[k]? = some (k % (ULONG_MAX + 1))) := by
  refine ⟨?_, ?_, ?_, ?_, ?_, ?_, ?_⟩
  · intro hpc hm now
    simp only [step, threadStep, preStart, run, processTaskQueue, hpc]
    exact ⟨_, rfl, by simp [hm]⟩
  · intro hpc hr now
    simp only [step, threadStep, preStart, run, processTaskQueue, hpc, hr, if_true]
  · intro s mid v hpc hc ht hmid hv
    have h := iteration_aux p (w.heap p).obj.tickCount (tickIndices p w.log) s w v mid
      (Or.inl ⟨by rw [hpc]; rfl, rfl, rfl⟩) hc ht hmid hv
    exact ⟨h.2, h.1⟩
  · intro hpc now
    obtain ⟨n, mid, v, hn, ht, hmid, hv⟩ := iteration_alone w p now hpc
    have h := iteration_aux p (w.heap p).obj.tickCount (tickIndices p w.log) _ w v mid
      (Or.inl ⟨by rw [hpc]; rfl, rfl, rfl⟩)
      (fun l hl => by rw [(List.mem_replicate.mp hl).2]; rfl) ht hmid hv
    exact ⟨n, mid, v, hn, ht, hmid, hv, h.2, h.1⟩
  · intro l v hl hc
    rcases step_tick_or_same w v l p hl hc with ⟨h1, h2, h3, _⟩ | h
    · exact Or.inl ⟨h1, h2, h3⟩
    · exact Or.inr h
  · intro s v hc h
    exact exec_tickIndices p s w v hc h
  · intro h0 hi s v hc h
    obtain ⟨n, h1, h2⟩ := exec_tickIndices p s w v hc h
    simp only [FThread.getTickCount] at h0 ⊢
    rw [hi, h0, List.nil_append] at h2
    rw [h0, nextTick_iterate_zero] at h1
    have hlen : (tickIndices p v.log).length = n := by rw [h2]; simp
    refine ⟨by rw [h1, hlen], ?_⟩
    intro k hk
    rw [hlen] at hk
    rw [h2, List.getElem?_map, List.getElem?_range hk]
    simp only [Option.map_some', nextTick_iterate_zero]

/-- An instance of C3 on the whole life of worker 1: from its construction to
the end its tick hook was called twice, the second call with index 1, and its
counter is 2; and its first iteration, run alone from its start, ends after at
most five steps with one call of the hook, index 0, and the counter at 1. -/
theorem C3_tick_hook_index_and_count_witness :
    (tickIndices 1 (runWorld wholeLife).log).length = 2 ∧
    (tickIndices 1 (runWorld wholeLife).log)[1]? = some 1 ∧
    ((runWorld wholeLife).heap 1).obj.getTickCount = 2 ∧
    (∃ n mid v, n ≤ 5 ∧
      execTrace (runWorld (wholeLife.take 8)) (List.replicate n (Label.thread 1 10)) =
        some (mid ++ [v]) ∧
      (v.heap 1).pc = PC.loopCheckTick ∧ tickIndices 1 v.log = [0] ∧
      (v.heap 1).obj.getTickCount = 1) := by
  have h := (C3_tick_hook_index_and_count (runWorld (wholeLife.take 1)) 1).2.2.2.2.2.2
    (by decide) (by decide) (wholeLife.drop 1) (runWorld wholeLife) (by decide)
    (exec_runWorld_append (wholeLife.take 1) (wholeLife.drop 1) (by decide))
  have hl : (tickIndices 1 (runWorld wholeLife).log).length = 2 := by decide
  rw [hl] at h
  obtain ⟨n, mid, v, hn, ht, _, hv, hi, hc⟩ :=
    (C3_tick_hook_index_and_count (runWorld (wholeLife.take 8)) 1).2.2.2.1 (by decide) 10
  have hb : ((runWorld (wholeLife.take 8)).heap 1).obj.backTaskQueue.length = 0 := by decide
  have hi0 : tickIndices 1 (runWorld (wholeLife.take 8)).log = [] := by decide
  have hc0 : ((runWorld (wholeLife.take 8)).heap 1).obj.getTickCount = 0 := by decide
  have ht0 : ((runWorld (wholeLife.take 8)).heap 1).obj.tickCount = 0 := by decide
  rw [hb] at hn
  rw [hi0, ht0] at hi
  rw [hc0] at hc
  exact ⟨hl, h.2 1 (by decide), h.1, n, mid, v, hn, ht, hv, hi, hc⟩

end GLFWTest
